import Mathlib

/-!
Verification development for the Postgres-backed key/value + vector store
(`langgraph/store/postgres/base.py`): a shallow embedding of its batch
compiler, filter compiler, namespace codec, path extractor and migration
runner, together with theorems about the spec's claims.

Python machine strings are modelled as `List Char` (`PyStr`); JSON-like
values carry decimal numbers `(m, e)` denoting `m / 10^e`, assumed in
canonical form (no trailing fractional zeros), matching Python float
rendering.  The backend is modelled semantically: each SQL statement the
code builds is represented by a structured descriptor, and executing it is
a Lean function on an explicit table state.
-/

namespace LGStore

/-- Model of a Python `str`: a list of characters. -/
abbrev PyStr := List Char

/-- Convert a Lean string literal to the `PyStr` model. -/
def pcs (s : String) : PyStr := s.data

/-- Decimal digits of a natural number, accumulator form (the first
argument is recursion fuel; `n` itself always suffices). -/
def natCharsGo : Nat → Nat → PyStr → PyStr
  | 0, _, acc => acc
  | fuel + 1, n, acc =>
    if n = 0 then acc
    else natCharsGo fuel (n / 10) (Char.ofNat (48 + n % 10) :: acc)

/-- Decimal rendering of a natural number. -/
def natChars (n : Nat) : PyStr :=
  if n = 0 then ['0'] else natCharsGo n n []

/-- Decimal rendering of an integer, as Python `str(int)` renders it. -/
def intChars (m : Int) : PyStr :=
  if m < 0 then '-' :: natChars m.natAbs else natChars m.natAbs

/-- Rendering of the decimal number `m / 10^e`, as Python renders the float
(`e = 0` is an int; otherwise digits with a decimal point). -/
def renderNum (m : Int) (e : Nat) : PyStr :=
  if e = 0 then intChars m
  else
    let ds := natChars m.natAbs
    let ds := List.replicate (e + 1 - ds.length) '0' ++ ds
    (if m < 0 then ['-'] else []) ++ ds.take (ds.length - e) ++ ['.'] ++ ds.drop (ds.length - e)

/-- Strict lexicographic order on `PyStr`, the model of the backend's text
comparison (`C` collation: by character code). -/
def ltChars : PyStr → PyStr → Bool
  | [], [] => false
  | [], _ :: _ => true
  | _ :: _, [] => false
  | a :: as, b :: bs => if a < b then true else if b < a then false else ltChars as bs

mutual

/-- JSON-like semi-structured value: the model of the Python values stored
in the `value` column.  Python `None` is `null`; numbers are decimals
`m / 10^e` in canonical form.  Arrays and objects are spelled as the
mutual types `JArr`/`JObj` so that recursion over values is structural. -/
inductive JValue where
  | null
  | bool (b : Bool)
  | num (m : Int) (e : Nat)
  | str (s : PyStr)
  | arr (elems : JArr)
  | obj (fields : JObj)

/-- Elements of a JSON array. -/
inductive JArr where
  | nil
  | cons (hd : JValue) (tl : JArr)

/-- Fields of a JSON object (names assumed unique, as in a Python dict). -/
inductive JObj where
  | nil
  | cons (name : PyStr) (val : JValue) (tl : JObj)

end

/-- View of a JSON array as a list. -/
def JArr.toList : JArr → List JValue
  | .nil => []
  | .cons h t => h :: t.toList

/-- Build a JSON array from a list. -/
def JArr.ofList : List JValue → JArr
  | [] => .nil
  | x :: xs => .cons x (JArr.ofList xs)

/-- View of a JSON object as an association list. -/
def JObj.toList : JObj → List (PyStr × JValue)
  | .nil => []
  | .cons n v t => (n, v) :: t.toList

/-- Build a JSON object from an association list. -/
def JObj.ofList : List (PyStr × JValue) → JObj
  | [] => .nil
  | f :: fs => .cons f.1 f.2 (JObj.ofList fs)

/-- Array literal helper. -/
def jarr (xs : List JValue) : JValue := .arr (JArr.ofList xs)

/-- Object literal helper. -/
def jobj (fs : List (PyStr × JValue)) : JValue := .obj (JObj.ofList fs)

/-- First matching field of a JSON object, the model of Python dict lookup. -/
def lookupField : JObj → PyStr → Option JValue
  | .nil, _ => none
  | .cons n v t, k => if n = k then some v else lookupField t k

/-- Minimal JSON string escaping used by the serializer model. -/
def jsonEscapeChar (c : Char) : PyStr :=
  if c = '"' then ['\\', '"']
  else if c = '\\' then ['\\', '\\']
  else if c = '\n' then ['\\', 'n']
  else if c = '\t' then ['\\', 't']
  else if c = '\r' then ['\\', 'r']
  else [c]

/-- JSON rendering of a string, quotes included. -/
def jsonEscape (s : PyStr) : PyStr :=
  '"' :: s.flatMap jsonEscapeChar ++ ['"']

/-- Stable insertion of an element into a `le`-sorted list, placing it
after existing elements it ties with. -/
def insertSorted (le : α → α → Bool) (a : α) : List α → List α
  | [] => [a]
  | b :: bs => if le b a then b :: insertSorted le a bs else a :: b :: bs

/-- Stable sort by a boolean `le`, as a left fold of sorted insertions. -/
def sortBy (le : α → α → Bool) (xs : List α) : List α :=
  xs.foldl (fun acc a => insertSorted le a acc) []

mutual

/-- Model of `json.dumps(obj, sort_keys=True)` (default separators):
object keys sorted, `", "` between items, `": "` after keys. -/
def jsonDumps : JValue → PyStr
  | .null => pcs "null"
  | .bool true => pcs "true"
  | .bool false => pcs "false"
  | .num m e => renderNum m e
  | .str s => jsonEscape s
  | .arr xs => '[' :: List.intercalate (pcs ", ") (jsonDumpsArr xs) ++ [']']
  | .obj fs =>
    let rendered := sortBy (fun a b => !ltChars b.1 a.1) (jsonDumpsObj fs)
    '{' :: List.intercalate (pcs ", ")
      (rendered.map (fun f => jsonEscape f.1 ++ pcs ": " ++ f.2)) ++ ['}']

/-- Serialize every element of a JSON array. -/
def jsonDumpsArr : JArr → List PyStr
  | .nil => []
  | .cons x xs => jsonDumps x :: jsonDumpsArr xs

/-- Serialize every field value of a JSON object, keeping the key. -/
def jsonDumpsObj : JObj → List (PyStr × PyStr)
  | .nil => []
  | .cons n v t => (n, jsonDumps v) :: jsonDumpsObj t

end

mutual

/-- Model of Python `repr` on a JSON-like value (single-quoted strings,
insertion order, `True`/`False`/`None`). -/
def pyRepr : JValue → PyStr
  | .null => pcs "None"
  | .bool true => pcs "True"
  | .bool false => pcs "False"
  | .num m e => renderNum m e
  | .str s => '\'' :: s ++ ['\'']
  | .arr xs => '[' :: List.intercalate (pcs ", ") (pyReprArr xs) ++ [']']
  | .obj fs => '{' :: List.intercalate (pcs ", ") (pyReprObj fs) ++ ['}']

/-- Repr of every element of a list value. -/
def pyReprArr : JArr → List PyStr
  | .nil => []
  | .cons x xs => pyRepr x :: pyReprArr xs

/-- Repr of every field of a dict value, as `key: value` pieces. -/
def pyReprObj : JObj → List PyStr
  | .nil => []
  | .cons n v t => (('\'' :: n ++ ['\'']) ++ pcs ": " ++ pyRepr v) :: pyReprObj t

end

/-- Model of Python `str(value)`: identity on strings, decimal rendering on
numbers, `True`/`False` on booleans, `repr` on containers. -/
def pyStrVal : JValue → PyStr
  | .str s => s
  | .num m e => renderNum m e
  | .bool true => pcs "True"
  | .bool false => pcs "False"
  | .null => pcs "None"
  | .arr xs => pyRepr (.arr xs)
  | .obj fs => pyRepr (.obj fs)

/-- Model of Python `int(s)`: optional sign followed by at least one
digit (underscore/whitespace forms are out of scope of the model). -/
def pyParseInt (s : PyStr) : Option Int :=
  let digitsVal (ds : PyStr) : Option Nat :=
    if ds.isEmpty || ds.any (fun c => !c.isDigit) then none
    else some (ds.foldl (fun n c => n * 10 + (c.toNat - 48)) 0)
  match s with
  | '-' :: ds => (digitsVal ds).map (fun n => -(n : Int))
  | '+' :: ds => (digitsVal ds).map (fun n => (n : Int))
  | ds => (digitsVal ds).map (fun n => (n : Int))

/-- Strip leading and trailing whitespace, the model of `str.strip()`. -/
def pyStrip (s : PyStr) : PyStr :=
  ((s.dropWhile Char.isWhitespace).reverse.dropWhile Char.isWhitespace).reverse

/-- Capture the rest of a bracket/brace group in `_tokenize_path`: consume
characters while the nesting count stays positive, returning the consumed
characters (closing delimiter included) and the remaining input. -/
def scanGroup (openC closeC : Char) : Nat → PyStr → PyStr × PyStr
  | _, [] => ([], [])
  | k, c :: cs =>
    let k' := if c = openC then k + 1 else if c = closeC then k - 1 else k
    if k' = 0 then ([c], cs)
    else
      let r := scanGroup openC closeC k' cs
      (c :: r.1, r.2)

/-- Loop body of `_tokenize_path`: `current` is the pending run of plain
characters, the last argument the remaining input.  The first argument is
recursion fuel; the input length always suffices, since each step consumes
at least one character. -/
def tokenizeAux : Nat → PyStr → PyStr → List PyStr
  | _, current, [] => if current.isEmpty then [] else [current]
  | 0, current, _ => if current.isEmpty then [] else [current]
  | fuel + 1, current, c :: cs =>
    if c = '[' then
      (if current.isEmpty then [] else [current]) ++
        (let r := scanGroup '[' ']' 1 cs
         ('[' :: r.1) :: tokenizeAux fuel [] r.2)
    else if c = '{' then
      (if current.isEmpty then [] else [current]) ++
        (let r := scanGroup '{' '}' 1 cs
         ('{' :: r.1) :: tokenizeAux fuel [] r.2)
    else if c = '.' then
      (if current.isEmpty then [] else [current]) ++ tokenizeAux fuel [] cs
    else tokenizeAux fuel (current ++ [c]) cs

/-- Model of `_tokenize_path`: split a path expression into plain-field,
`[...]` and `{...}` tokens; `.` outside groups separates tokens. -/
def _tokenize_path (path : PyStr) : List PyStr :=
  if path.isEmpty then [] else tokenizeAux path.length [] path

/-- Plain map walk used by the `{...}` fan-out branch of
`_extract_from_obj`: follow the nested tokens through dict fields only.
Python uses `None` both for a missing field and for a stored JSON null, so
the walk answers `null` in both cases. -/
def braceWalk : JValue → List PyStr → JValue
  | cur, [] => cur
  | cur, t :: ts =>
    match cur with
    | .obj fs =>
      match lookupField fs t with
      | some v => braceWalk v ts
      | none => .null
    | _ => .null

/-- Contribution of one listed sub-field of a `{...}` fan-out token: walk
the nested dotted path through the map and stringify the value it lands
on; a walk answering `null` (missing field or stored null) contributes
nothing. -/
def braceFieldContribution (obj : JValue) (f : PyStr) : List PyStr :=
  let nts := _tokenize_path f
  if nts.isEmpty then []
  else
    match braceWalk obj nts with
    | .null => []
    | .str s => [s]
    | .num m e => [renderNum m e]
    | .bool b => [pyStrVal (.bool b)]
    | .arr xs => [jsonDumps (.arr xs)]
    | .obj fs => [jsonDumps (.obj fs)]

/-- Head test for a token character. -/
def tokStarts (c : Char) (t : PyStr) : Bool := t.head? = some c

/-- Last-character test for a token. -/
def tokEnds (c : Char) (t : PyStr) : Bool := t.getLast? = some c

/-- Recursive worker of `_extract_text_by_path` (`_extract_from_obj` in the
source), consuming the token list against the value tree. -/
def _extract_from_obj (obj : JValue) : List PyStr → List PyStr
  | [] =>
    match obj with
    | .str s => [s]
    | .num m e => [renderNum m e]
    | .bool b => [pyStrVal (.bool b)]
    | .null => []
    | .arr xs => [jsonDumps (.arr xs)]
    | .obj fs => [jsonDumps (.obj fs)]
  | token :: rest =>
    if tokStarts '[' token && tokEnds ']' token then
      match obj with
      | .arr xs =>
        let xl := xs.toList
        let inner := (token.drop 1).dropLast
        if inner = ['*'] then
          xl.flatMap (fun item => _extract_from_obj item rest)
        else
          match pyParseInt inner with
          | none => []
          | some i =>
            let idx : Int := if i < 0 then (xl.length : Int) + i else i
            if h : 0 ≤ idx ∧ idx < (xl.length : Int) then
              _extract_from_obj (xl.get ⟨idx.toNat, by
                have := h.2
                omega⟩) rest
            else []
      | _ => []
    else if tokStarts '{' token && tokEnds '}' token then
      match obj with
      | .obj fs =>
        let fields := ((token.drop 1).dropLast.splitOn ',').map pyStrip
        fields.flatMap (braceFieldContribution (.obj fs))
      | _ => []
    else if token = ['*'] then
      match obj with
      | .obj fs => fs.toList.flatMap (fun f => _extract_from_obj f.2 rest)
      | .arr xs => xs.toList.flatMap (fun item => _extract_from_obj item rest)
      | _ => []
    else
      match obj with
      | .obj fs =>
        match lookupField fs token with
        | some v => _extract_from_obj v rest
        | none => []
      | _ => []

/-- Model of `_extract_text_by_path`: the empty path or `__root__` yields
the canonical serialization of the whole value; otherwise tokenize the
path and walk the value tree. -/
def _extract_text_by_path (obj : JValue) (path : PyStr) : List PyStr :=
  if path.isEmpty || path = pcs "__root__" then [jsonDumps obj]
  else _extract_from_obj obj (_tokenize_path path)

/-- Model of `_namespace_to_text`: join the namespace segments with `.`;
in wildcard mode a segment equal to `*` first becomes the backend wildcard
`%`. -/
def _namespace_to_text (ns : List PyStr) (handleWildcards : Bool) : PyStr :=
  let ns := if handleWildcards then ns.map (fun v => if v = ['*'] then ['%'] else v) else ns
  List.intercalate ['.'] ns

/-- Input forms accepted by `_decode_ns_bytes`: a pre-split sequence, a
byte string carrying one leading marker byte, or plain text. -/
inductive NsInput where
  | seq (xs : List PyStr)
  | bytes (b : PyStr)
  | raw (s : PyStr)

/-- Model of `_decode_ns_bytes`: pass a sequence through, strip exactly one
leading marker byte from a byte string, and split text on `.`. -/
def _decode_ns_bytes : NsInput → List PyStr
  | .seq xs => xs
  | .bytes b => (b.drop 1).splitOn '.'
  | .raw s => s.splitOn '.'

/-- Decode a stored `prefix` column value back into a namespace. -/
def decodeNsText (s : PyStr) : List PyStr := _decode_ns_bytes (.raw s)

/-- Error taxonomy of the batch engine (the spec's names for the
`ValueError`s the source raises). -/
inductive Err where
  | unsupportedOperator (opName : PyStr)
  | embeddingConfigRequired
  deriving DecidableEq

/-- Compiled filter predicate: each constructor records one of the six SQL
templates `_get_filter_condition` can emit, with its parameters.
`jsonbEqC k v` is `value->k = v::jsonb` (the operand travels as
`json.dumps(v)`); the four text forms are `value->>k <op> str(operand)`. -/
inductive FilterCond where
  | jsonbEqC (key : PyStr) (v : JValue)
  | jsonbNeC (key : PyStr) (v : JValue)
  | textGtC (key : PyStr) (t : PyStr)
  | textGteC (key : PyStr) (t : PyStr)
  | textLtC (key : PyStr) (t : PyStr)
  | textLteC (key : PyStr) (t : PyStr)

/-- Model of `_get_filter_condition`: compile one `field, operator,
operand` triple, failing on any operator outside the supported six. -/
def _get_filter_condition (key : PyStr) (opName : PyStr) (value : JValue) :
    Except Err FilterCond :=
  if opName = pcs "$eq" then .ok (.jsonbEqC key value)
  else if opName = pcs "$gt" then .ok (.textGtC key (pyStrVal value))
  else if opName = pcs "$gte" then .ok (.textGteC key (pyStrVal value))
  else if opName = pcs "$lt" then .ok (.textLtC key (pyStrVal value))
  else if opName = pcs "$lte" then .ok (.textLteC key (pyStrVal value))
  else if opName = pcs "$ne" then .ok (.jsonbNeC key (value))
  else .error (.unsupportedOperator opName)

/-- Model of `jsonb` equality: equality of canonical serializations
(object keys sorted; numbers are assumed canonical). -/
def jsonbEq (a b : JValue) : Bool := jsonDumps a = jsonDumps b

/-- Model of `value->key` on a stored row: the field's `jsonb` value when
the row is an object containing the key, SQL `NULL` (here `none`)
otherwise.  A stored JSON null is a value, not SQL `NULL`. -/
def jGet (row : JValue) (k : PyStr) : Option JValue :=
  match row with
  | .obj fs => lookupField fs k
  | _ => none

/-- Model of `value->>key`: the field rendered as backend text.  A missing
key, a non-object row or a stored JSON null all give SQL `NULL`. -/
def jTextGet (row : JValue) (k : PyStr) : Option PyStr :=
  match jGet row k with
  | none => none
  | some .null => none
  | some (.str s) => some s
  | some (.num m e) => some (renderNum m e)
  | some (.bool true) => some (pcs "true")
  | some (.bool false) => some (pcs "false")
  | some v => some (jsonDumps v)

/-- Backend evaluation of one compiled filter condition on a row's stored
value: `jsonb` forms compare parsed values, text forms compare the
field's textual representation with the operand under text order; any
comparison against SQL `NULL` is not satisfied. -/
def evalFilterCond (row : JValue) : FilterCond → Bool
  | .jsonbEqC k v =>
    match jGet row k with
    | some w => jsonbEq w v
    | none => false
  | .jsonbNeC k v =>
    match jGet row k with
    | some w => !jsonbEq w v
    | none => false
  | .textGtC k t =>
    match jTextGet row k with
    | some s => ltChars t s
    | none => false
  | .textGteC k t =>
    match jTextGet row k with
    | some s => !ltChars s t
    | none => false
  | .textLtC k t =>
    match jTextGet row k with
    | some s => ltChars s t
    | none => false
  | .textLteC k t =>
    match jTextGet row k with
    | some s => !ltChars t s
    | none => false

/-- Worker of the backend `LIKE` matcher (first argument is recursion
fuel; the summed length of pattern and subject always suffices). -/
def likeMatchGo : Nat → PyStr → PyStr → Bool
  | 0, _, s => s.isEmpty
  | _ + 1, [], s => s.isEmpty
  | fuel + 1, p :: ps, s =>
    if p = '%' then
      likeMatchGo fuel ps s ||
        (match s with
         | [] => false
         | _ :: s' => likeMatchGo fuel (p :: ps) s')
    else
      match s with
      | [] => false
      | c :: s' => (p = '_' || p = c) && likeMatchGo fuel ps s'

/-- Backend `LIKE` matching (no escape handling, as the source passes raw
patterns): `%` matches any run, `_` any single character. -/
def likeMatch (p s : PyStr) : Bool := likeMatchGo (p.length + s.length) p s

/-- One row of the primary `store` table.  `pfx` models the `prefix`
column (the encoded namespace). -/
structure DBRow where
  pfx : PyStr
  key : PyStr
  value : JValue
  createdAt : Nat
  updatedAt : Nat

/-- One row of the optional `store_vectors` table; one embedding per
extracted fragment, keyed by namespace text, key and field name. -/
structure VecRow where
  pfx : PyStr
  key : PyStr
  fieldName : PyStr
  embedding : List Rat
  createdAt : Nat
  updatedAt : Nat

/-- Durable backend state: the two tables plus the clock value the backend
substitutes for `CURRENT_TIMESTAMP` during this batch. -/
structure StoreState where
  store : List DBRow
  vectors : List VecRow
  now : Nat

/-- Model of `EmbeddingConfig`.  The external `Embeddings` collaborator is
modelled as a deterministic per-text function; `embed_documents(texts)` is
`texts.map embed`.  `textFields = none` models an absent `text_fields`
entry, defaulted to `["__root__"]`. -/
structure EmbeddingConfig where
  dims : Nat
  embed : PyStr → List Rat
  textFields : Option (List PyStr)

/-- Backend collaborator facts outside this repository: `dist` models the
pgvector cosine-distance operator. -/
structure Backend where
  dist : List Rat → List Rat → Rat

/-- Model of `GetOp`; `ns` models the `namespace` attribute. -/
structure GetOp where
  ns : List PyStr
  key : PyStr

/-- Model of `PutOp`; `value = none` is the deletion sentinel. -/
structure PutOp where
  ns : List PyStr
  key : PyStr
  value : Option JValue

/-- Model of `MatchCondition`: a match type string and a path that may
contain the `*` wildcard segment. -/
structure MatchCondition where
  matchType : PyStr
  path : List PyStr

/-- Model of `SearchOp`; `nsPfx` models `namespace_prefix`.  A filter
entry whose value is a JSON object is an operator mapping; anything else
means equality. -/
structure SearchOp where
  nsPfx : List PyStr
  filter : List (PyStr × JValue)
  query : Option PyStr
  limit : Nat
  offset : Nat

/-- Model of `ListNamespacesOp` (an empty `matchConds` models `None`,
which the source treats identically). -/
structure ListNamespacesOp where
  matchConds : List MatchCondition
  maxDepth : Option Nat
  limit : Nat
  offset : Nat

/-- The closed tagged union of batch operations. -/
inductive Op where
  | get (g : GetOp)
  | put (p : PutOp)
  | search (s : SearchOp)
  | listNs (l : ListNamespacesOp)

/-- Typed batch result slot: `null` models Python `None` (a missed Get or
a Put slot). -/
structure Item where
  ns : List PyStr
  key : PyStr
  value : JValue
  createdAt : Nat
  updatedAt : Nat

/-- Search result item: an item plus the optional relevance score. -/
structure SearchItem where
  ns : List PyStr
  key : PyStr
  value : JValue
  createdAt : Nat
  updatedAt : Nat
  score : Option Rat

/-- One slot of the batch result vector. -/
inductive Result where
  | null
  | item (i : Item)
  | items (xs : List SearchItem)
  | namespaces (xs : List (List PyStr))

/-- Structured descriptor of one SQL statement the engine executes. -/
inductive Stmt where
  | getQ (pfxText : PyStr) (keys : List PyStr)
  | searchQ (likePat : PyStr) (vector : Bool) (qvec : Option (List Rat))
      (conds : List FilterCond) (limit offset : Nat)
  | listQ (maxDepth : Option Nat) (pats : List PyStr) (limit offset : Nat)
  | deleteQ (pfxText : PyStr) (keys : List PyStr)
  | upsertQ (params : List (PyStr × PyStr × JValue))
  | vecUpsertQ (pfxText key fieldName : PyStr) (embedding : List Rat)

/-- Observable engine action: executing a statement, or one call to the
embedding capability with the full list of texts passed to it. -/
inductive Event where
  | exec (s : Stmt)
  | embedCall (texts : List PyStr)

/-- Model of Python `enumerate`. -/
def enumFrom : Nat → List α → List (Nat × α)
  | _, [] => []
  | i, a :: as => (i, a) :: enumFrom (i + 1) as

/-- The four per-kind groups `_group_ops` produces, each entry tagged with
its original ordinal position. -/
structure GroupedOps where
  gets : List (Nat × GetOp)
  searches : List (Nat × SearchOp)
  lists : List (Nat × ListNamespacesOp)
  puts : List (Nat × PutOp)

/-- Model of `_group_ops`: group the enumerated operations by concrete
operation kind, preserving submission order inside each group. -/
def _group_ops (ops : List Op) : GroupedOps :=
  let e := enumFrom 0 ops
  { gets := e.filterMap (fun p => match p.2 with | .get g => some (p.1, g) | _ => none)
    searches := e.filterMap (fun p => match p.2 with | .search s => some (p.1, s) | _ => none)
    lists := e.filterMap (fun p => match p.2 with | .listNs l => some (p.1, l) | _ => none)
    puts := e.filterMap (fun p => match p.2 with | .put q => some (p.1, q) | _ => none) }

/-- Append an item to its key's group, creating the group at the end on
first sight of the key: the model of a `defaultdict(list)` in insertion
order (keys are unique, so the first matching group is the group). -/
def addToGroup [DecidableEq K] : List (K × List β) → K → β → List (K × List β)
  | [], k, b => [(k, [b])]
  | g :: gs, k, b =>
    if g.1 = k then (g.1, g.2 ++ [b]) :: gs else g :: addToGroup gs k b

/-- Group a list by a key function, mapping each element to an item. -/
def groupPairs [DecidableEq K] (key : α → K) (item : α → β) (xs : List α) :
    List (K × List β) :=
  xs.foldl (fun gs a => addToGroup gs (key a) (item a)) []

/-- Items grouped under a key (association-list reading of the groups). -/
def groupItems [DecidableEq K] : List (K × List β) → K → List β
  | [], _ => []
  | g :: gs, k => if g.1 = k then g.2 else groupItems gs k

/-- Model of `_get_batch_GET_ops_queries`: one group per namespace,
carrying the `(original index, key)` pairs that share it. -/
def _get_batch_GET_ops_queries (getOps : List (Nat × GetOp)) :
    List (List PyStr × List (Nat × PyStr)) :=
  groupPairs (fun (p : Nat × GetOp) => p.2.ns) (fun p => (p.1, p.2.key)) getOps

/-- Last row of the list with the given key: the model of building a
Python dict keyed by `row["key"]` (later rows win) and looking up. -/
def lastWithKey (rows : List DBRow) (k : PyStr) : Option DBRow :=
  rows.foldl (fun acc r => if r.key = k then some r else acc) none

/-- Rows a grouped Get query returns: prefix equality plus `key IN`. -/
def getGroupRows (st : StoreState) (txt : PyStr) (keys : List PyStr) : List DBRow :=
  st.store.filter (fun r => decide (r.pfx = txt ∧ r.key ∈ keys))

/-- Convert a fetched row into an `Item`, with the namespace the group was
keyed by (the model of `_row_to_item`). -/
def rowToItem (ns : List PyStr) (r : DBRow) : Item :=
  { ns := ns, key := r.key, value := r.value, createdAt := r.createdAt,
    updatedAt := r.updatedAt }

/-- Result a grouped Get query yields for one `(index, key)` entry. -/
def getGroupResult (st : StoreState) (g : List PyStr × List (Nat × PyStr))
    (key : PyStr) : Result :=
  match lastWithKey
      (getGroupRows st (_namespace_to_text g.1 false) (g.2.map (·.2))) key with
  | some r => Result.item (rowToItem g.1 r)
  | none => Result.null

/-- Scatter one grouped Get query's per-key results into the result
vector at each contributing index. -/
def getGroupScatter (st : StoreState) (g : List PyStr × List (Nat × PyStr))
    (rs : List Result) : List Result :=
  g.2.foldl (fun rs p => rs.set p.1 (getGroupResult st g p.2)) rs

/-- Statement event of one grouped Get query. -/
def getGroupEvent (g : List PyStr × List (Nat × PyStr)) : Event :=
  Event.exec (Stmt.getQ (_namespace_to_text g.1 false) (g.2.map (·.2)))

/-- Model of `_batch_get_ops`: execute each grouped query and scatter the
per-key results back to each contributing index; a key with no matching
row leaves the `null` (not-found) result. -/
def runGetPhase (st : StoreState) (getOps : List (Nat × GetOp)) (results : List Result) :
    List Result × List Event :=
  (_get_batch_GET_ops_queries getOps).foldl
    (fun acc g => (getGroupScatter st g acc.1, acc.2 ++ [getGroupEvent g]))
    (results, [])

/-- Compiled form of one search query: `qvec` is the placeholder slot the
embedding pipeline fills before execution. -/
structure SearchQuery where
  vector : Bool
  qvec : Option (List Rat)
  likePat : PyStr
  conds : List FilterCond
  limit : Nat
  offset : Nat

/-- Compile the operator entries of one filter field. -/
def compileOpEntries (k : PyStr) : List (PyStr × JValue) → Except Err (List FilterCond)
  | [] => .ok []
  | (opName, val) :: rest => do
    let c ← _get_filter_condition k opName val
    let cs ← compileOpEntries k rest
    .ok (c :: cs)

/-- Compile a whole filter mapping: an object value is an operator
mapping, any other value compiles to the equality template. -/
def compileFilters : List (PyStr × JValue) → Except Err (List FilterCond)
  | [] => .ok []
  | (k, v) :: rest =>
    match v with
    | .obj entries => do
      let cs ← compileOpEntries k entries.toList
      let csr ← compileFilters rest
      .ok (cs ++ csr)
    | _ => do
      let csr ← compileFilters rest
      .ok (.jsonbEqC k v :: csr)

/-- Compile one `SearchOp` (the loop body of
`_prepare_batch_search_queries`): vector form iff a non-empty semantic
query is present and an embedding config is active. -/
def compileSearchOne (cfg : Option EmbeddingConfig) (op : SearchOp) :
    Except Err SearchQuery := do
  let vec := (match op.query with | some q => !q.isEmpty | none => false) && cfg.isSome
  let conds ← compileFilters op.filter
  .ok { vector := vec, qvec := none,
        likePat := _namespace_to_text op.nsPfx false ++ ['%'],
        conds := conds, limit := op.limit, offset := op.offset }

/-- Embedding request one search op contributes: its `(position, query
text)` pair when a non-empty query and a config are present. -/
def searchReqOf (cfg : Option EmbeddingConfig) (j : Nat) (op : SearchOp) :
    List (Nat × PyStr) :=
  match op.query with
  | some q => if !q.isEmpty && cfg.isSome then [(j, q)] else []
  | none => []

/-- Model of `_prepare_batch_search_queries`: compile every search op in
order, collecting `(position in the search group, query text)` pairs to
embed. -/
def _prepare_batch_search_queries (cfg : Option EmbeddingConfig) :
    List (Nat × SearchOp) → Nat → Except Err (List SearchQuery × List (Nat × PyStr))
  | [], _ => .ok ([], [])
  | (_, op) :: rest, j => do
    let q ← compileSearchOne cfg op
    let r ← _prepare_batch_search_queries cfg rest (j + 1)
    .ok (q :: r.1, searchReqOf cfg j op ++ r.2)

/-- Replace the element at an index, if any (the model of an in-place
`queries[idx][1][0] = embedding` assignment). -/
def modifyAt (f : α → α) : Nat → List α → List α
  | _, [] => []
  | 0, a :: as => f a :: as
  | n + 1, a :: as => a :: modifyAt f n as

/-- Scatter the returned vectors back into the placeholder slot of each
requesting query, by position. -/
def patchQueries (embed : PyStr → List Rat) (reqs : List (Nat × PyStr))
    (qs : List SearchQuery) : List SearchQuery :=
  reqs.foldl (fun qs r => modifyAt (fun q => { q with qvec := some (embed r.2) }) r.1 qs) qs

/-- Search result row as the backend returns it (with the similarity
score column in vector form). -/
structure SRow where
  pfx : PyStr
  key : PyStr
  value : JValue
  createdAt : Nat
  updatedAt : Nat
  score : Option Rat

/-- Backend semantics of one compiled search query: prefix `LIKE` match
and filter conditions, joined with the vectors table and scored when in
vector form; ordered by score (vector) or recency, then paged. -/
def runSearchQuery (be : Backend) (st : StoreState) (q : SearchQuery) : List SRow :=
  let base : List SRow :=
    if q.vector then
      st.store.flatMap (fun s =>
        st.vectors.filterMap (fun sv =>
          if sv.pfx = s.pfx ∧ sv.key = s.key then
            some { pfx := s.pfx, key := s.key, value := s.value,
                   createdAt := s.createdAt, updatedAt := s.updatedAt,
                   score := some (1 - be.dist sv.embedding (q.qvec.getD [])) }
          else none))
    else
      st.store.map (fun s =>
        { pfx := s.pfx, key := s.key, value := s.value, createdAt := s.createdAt,
          updatedAt := s.updatedAt, score := none })
  let rows := base.filter (fun r =>
    likeMatch q.likePat r.pfx && q.conds.all (evalFilterCond r.value))
  let sorted :=
    if q.vector then sortBy (fun a b => decide ((b.score.getD 0) ≤ (a.score.getD 0))) rows
    else sortBy (fun a b => decide (b.updatedAt ≤ a.updatedAt)) rows
  (sorted.drop q.offset).take q.limit

/-- Convert a search row into a `SearchItem`, decoding its namespace from
the stored prefix text. -/
def rowToSearchItem (r : SRow) : SearchItem :=
  { ns := decodeNsText r.pfx, key := r.key, value := r.value,
    createdAt := r.createdAt, updatedAt := r.updatedAt, score := r.score }

/-- Statement descriptor of a compiled search query. -/
def searchStmt (q : SearchQuery) : Stmt :=
  .searchQ q.likePat q.vector q.qvec q.conds q.limit q.offset

/-- Write one executed search query's item list at its op's index. -/
def searchWrite (be : Backend) (st : StoreState) (p : (Nat × SearchOp) × SearchQuery)
    (rs : List Result) : List Result :=
  rs.set p.1.1 (Result.items ((runSearchQuery be st p.2).map rowToSearchItem))

/-- Execution loop of `_batch_search_ops`: run each query and write its
item list at the originating op's index. -/
def runSearchExec (be : Backend) (st : StoreState) (searchOps : List (Nat × SearchOp))
    (qs : List SearchQuery) (results : List Result) : List Result × List Event :=
  (searchOps.zip qs).foldl
    (fun acc p => (searchWrite be st p acc.1, acc.2 ++ [Event.exec (searchStmt p.2)]))
    (results, [])

/-- Model of `_batch_search_ops`: compile all search ops, make the single
embedding call for this phase when requests are pending and a config is
set, fill the placeholders, then execute. -/
def runSearchPhase (be : Backend) (cfg : Option EmbeddingConfig) (st : StoreState)
    (searchOps : List (Nat × SearchOp)) (results : List Result) :
    Except Err (List Result × List Event) := do
  let pr ← _prepare_batch_search_queries cfg searchOps 0
  match cfg, pr.2 with
  | some c, r :: rs =>
    let reqs := r :: rs
    let qs := patchQueries c.embed reqs pr.1
    let ex := runSearchExec be st searchOps qs results
    .ok (ex.1, Event.embedCall (reqs.map (·.2)) :: ex.2)
  | _, _ =>
    .ok (runSearchExec be st searchOps pr.1 results)

/-- LIKE patterns one `ListNamespacesOp`'s match conditions compile to (an
unknown match type only logs a warning and adds no condition). -/
def listPats (op : ListNamespacesOp) : List PyStr :=
  op.matchConds.filterMap (fun c =>
    if c.matchType = pcs "prefix" then
      some (_namespace_to_text c.path true ++ ['%'])
    else if c.matchType = pcs "suffix" then
      some ('%' :: _namespace_to_text c.path true)
    else none)

/-- First-occurrence deduplication, the model of `SELECT DISTINCT ON`. -/
def dedupFirst [DecidableEq α] (xs : List α) : List α :=
  xs.foldl (fun acc a => if a ∈ acc then acc else acc ++ [a]) []

/-- Truncated namespace text: keep at most `maxDepth` leading segments,
the whole prefix when unset. -/
def truncatedNs (maxDepth : Option Nat) (p : PyStr) : PyStr :=
  match maxDepth with
  | some d => List.intercalate ['.'] ((p.splitOn '.').take d)
  | none => p

/-- Backend semantics of one list-namespaces query: filter stored
prefixes by the compiled LIKE conditions, truncate, deduplicate, order
lexicographically, page, and decode. -/
def runListNsQuery (st : StoreState) (op : ListNamespacesOp) : List (List PyStr) :=
  let pats := listPats op
  let rows := st.store.filter (fun r => pats.all (fun pat => likeMatch pat r.pfx))
  let trunc := rows.map (fun r => truncatedNs op.maxDepth r.pfx)
  let dist := sortBy (fun a b => !ltChars b a) (dedupFirst trunc)
  ((dist.drop op.offset).take op.limit).map decodeNsText

/-- Write one list-namespaces query's namespace list at its op's index. -/
def listWrite (st : StoreState) (p : Nat × ListNamespacesOp) (rs : List Result) :
    List Result :=
  rs.set p.1 (Result.namespaces (runListNsQuery st p.2))

/-- Statement event of one list-namespaces query. -/
def listEvent (p : Nat × ListNamespacesOp) : Event :=
  Event.exec (Stmt.listQ p.2.maxDepth (listPats p.2) p.2.limit p.2.offset)

/-- Model of `_batch_list_namespaces_ops`: run each op's query and write
the namespace list at its index. -/
def runListPhase (st : StoreState) (listOps : List (Nat × ListNamespacesOp))
    (results : List Result) : List Result × List Event :=
  listOps.foldl
    (fun acc p => (listWrite st p acc.1, acc.2 ++ [listEvent p]))
    (results, [])

/-- Insert into an insertion-ordered dict: replace in place when the key
exists (keys are unique, so the first match is the entry), append
otherwise (the model of `d[k] = v`). -/
def dictInsert [DecidableEq K] : List (K × V) → K → V → List (K × V)
  | [], k, v => [(k, v)]
  | kv :: d, k, v => if kv.1 = k then (k, v) :: d else kv :: dictInsert d k v

/-- Last-write-wins deduplication of a Put group by `(namespace, key)`,
keeping first-sight key order (the model of the `dedupped_ops` dict). -/
def deduppedPutOps (putOps : List (Nat × PutOp)) :
    List ((List PyStr × PyStr) × PutOp) :=
  putOps.foldl (fun d p => dictInsert d (p.2.ns, p.2.key) p.2) []

/-- Model of `_prepare_batch_PUT_queries`: deduplicate, partition into
upserts and deletions, compile one grouped delete per namespace and one
grouped upsert, and collect `(namespace text, key, field, fragment)`
embedding work when a config is active. -/
def _prepare_batch_PUT_queries (cfg : Option EmbeddingConfig)
    (putOps : List (Nat × PutOp)) :
    List Stmt × Option (List (PyStr × PyStr × PyStr × PyStr)) :=
  let parts := ((deduppedPutOps putOps).map (·.2)).partition (fun op => op.value.isSome)
  let inserts := parts.1
  let deletes := parts.2
  let deleteGroups := groupPairs (fun (op : PutOp) => op.ns) (fun op => op.key) deletes
  let deleteQueries := deleteGroups.map (fun g =>
    Stmt.deleteQ (_namespace_to_text g.1 false) g.2)
  let upsertQueries :=
    if inserts.isEmpty then []
    else
      [Stmt.upsertQ (inserts.map (fun op =>
        (_namespace_to_text op.ns false, op.key, op.value.getD .null)))]
  let embReqParams :=
    match cfg with
    | some c =>
      if inserts.isEmpty then []
      else
        let textFields := c.textFields.getD [pcs "__root__"]
        inserts.flatMap (fun op =>
          textFields.flatMap (fun field =>
            (_extract_text_by_path (op.value.getD .null) field).map (fun text =>
              (_namespace_to_text op.ns false, op.key, field, text))))
    | none => []
  (deleteQueries ++ upsertQueries,
   if embReqParams.isEmpty then none else some embReqParams)

/-- Backend effect of a grouped delete: remove the keyed rows; the
`store_vectors` foreign key cascades the delete. -/
def applyDelete (st : StoreState) (txt : PyStr) (keys : List PyStr) : StoreState :=
  { st with
    store := st.store.filter (fun r => !decide (r.pfx = txt ∧ r.key ∈ keys)),
    vectors := st.vectors.filter (fun v => !decide (v.pfx = txt ∧ v.key ∈ keys)) }

/-- Backend effect of one upsert row: on conflict overwrite value and
`updated_at`, else insert with both timestamps current. -/
def upsertRow (st : StoreState) (txt key : PyStr) (v : JValue) : StoreState :=
  if st.store.any (fun r => decide (r.pfx = txt ∧ r.key = key)) then
    { st with store := st.store.map (fun r =>
        if r.pfx = txt ∧ r.key = key then { r with value := v, updatedAt := st.now } else r) }
  else
    { st with store := st.store ++ [⟨txt, key, v, st.now, st.now⟩] }

/-- Backend effect of one vector upsert row. -/
def upsertVecRow (st : StoreState) (txt key field : PyStr) (emb : List Rat) : StoreState :=
  if st.vectors.any (fun r => decide (r.pfx = txt ∧ r.key = key ∧ r.fieldName = field)) then
    { st with vectors := st.vectors.map (fun r =>
        if r.pfx = txt ∧ r.key = key ∧ r.fieldName = field then
          { r with embedding := emb, updatedAt := st.now }
        else r) }
  else
    { st with vectors := st.vectors ++ [⟨txt, key, field, emb, st.now, st.now⟩] }

/-- Backend effect of one compiled put-phase statement (read statements
leave the state unchanged). -/
def execPutStmt (st : StoreState) : Stmt → StoreState
  | .deleteQ txt keys => applyDelete st txt keys
  | .upsertQ params => params.foldl (fun st p => upsertRow st p.1 p.2.1 p.2.2) st
  | .vecUpsertQ txt key field emb => upsertVecRow st txt key field emb
  | _ => st

/-- Model of `_batch_put_ops`: compile, guard the pending embedding work
against an absent config, make the single embedding call of this phase,
append one vector upsert per fragment (the source reuses the grouped
template per row; the model keeps the per-row effect), then execute. -/
def runPutPhase (cfg : Option EmbeddingConfig) (st : StoreState)
    (putOps : List (Nat × PutOp)) : Except Err (List Event × StoreState) :=
  let pr := _prepare_batch_PUT_queries cfg putOps
  match pr.2 with
  | some req =>
    match cfg with
    | none => .error .embeddingConfigRequired
    | some c =>
      let vecs := req.map (fun p => c.embed p.2.2.2)
      let queries := pr.1 ++ (req.zip vecs).map (fun pv =>
        Stmt.vecUpsertQ pv.1.1 pv.1.2.1 pv.1.2.2.1 pv.2)
      .ok (Event.embedCall (req.map (·.2.2.2)) :: queries.map Event.exec,
           queries.foldl execPutStmt st)
  | none =>
    .ok (pr.1.map Event.exec, pr.1.foldl execPutStmt st)

/-- Model of `PostgresStore.batch`: group, pre-size the result vector,
then run the Get, Search, ListNamespaces and Put phases in the source's
fixed order.  Returns the result vector (or the error that aborted the
batch), the trace of observable events up to that point, and the final
table state. -/
def batch (be : Backend) (cfg : Option EmbeddingConfig) (st : StoreState)
    (ops : List Op) : Except Err (List Result) × List Event × StoreState :=
  let g := _group_ops ops
  let r0 := List.replicate ops.length Result.null
  let p1 := runGetPhase st g.gets r0
  match runSearchPhase be cfg st g.searches p1.1 with
  | .error e => (.error e, p1.2, st)
  | .ok p2 =>
    let p3 := runListPhase st g.lists p2.1
    match runPutPhase cfg st g.puts with
    | .error e => (.error e, p1.2 ++ p2.2 ++ p3.2, st)
    | .ok p4 => (.ok p3.1, p1.2 ++ p2.2 ++ p3.2 ++ p4.1, p4.2)

/-- Standalone semantics of a single Get: the result the op would produce
alone against the same state. -/
def getOpSpec (st : StoreState) (g : GetOp) : Result :=
  let txt := _namespace_to_text g.ns false
  match lastWithKey (st.store.filter (fun r => decide (r.pfx = txt ∧ r.key = g.key))) g.key with
  | some r => Result.item (rowToItem g.ns r)
  | none => Result.null

/-- Query-vector fill a single search op receives: when a non-empty
semantic query and a config are present, its placeholder is replaced by
the embedding of its query text. -/
def specQuery (cfg : Option EmbeddingConfig) (s : SearchOp) (q : SearchQuery) : SearchQuery :=
  match cfg, s.query with
  | some c, some qt => if !qt.isEmpty then { q with qvec := some (c.embed qt) } else q
  | _, _ => q

/-- Standalone semantics of a single Search: compile it alone, fill its
query vector when a semantic query and a config are present, and run it. -/
def searchOpSpec (be : Backend) (cfg : Option EmbeddingConfig) (st : StoreState)
    (s : SearchOp) : Except Err Result := do
  let q ← compileSearchOne cfg s
  .ok (Result.items ((runSearchQuery be st (specQuery cfg s q)).map rowToSearchItem))

/-- Standalone semantics of one operation: what `results[i]` must hold for
`ops[i]` (a Put contributes no result). -/
def opSpec (be : Backend) (cfg : Option EmbeddingConfig) (st : StoreState) :
    Op → Except Err Result
  | .get g => .ok (getOpSpec st g)
  | .put _ => .ok Result.null
  | .search s => searchOpSpec be cfg st s
  | .listNs l => .ok (Result.namespaces (runListNsQuery st l))

/-- Apply a list of `(index, value)` writes to a result vector. -/
def scatter (rs : List Result) (ws : List (Nat × Result)) : List Result :=
  ws.foldl (fun rs w => rs.set w.1 w.2) rs

/-- Texts of each embedding-capability call in an event trace, in call
order: one entry per call, holding the full list passed to that call. -/
def embedCallTexts (ev : List Event) : List (List PyStr) :=
  ev.filterMap (fun e =>
    match e with
    | .embedCall ts => some ts
    | .exec _ => none)

/-- The embedding requests a search group generates, counting positions
from `j` (the specification of the request list
`_prepare_batch_search_queries` collects). -/
def reqsSpec (cfg : Option EmbeddingConfig) : Nat → List (Nat × SearchOp) → List (Nat × PyStr)
  | _, [] => []
  | j, (_, op) :: rest => searchReqOf cfg j op ++ reqsSpec cfg (j + 1) rest

/-- All `(namespace text, key, value)` rows of the grouped upsert
statements in a compiled put-query list. -/
def upsertTriples (stmts : List Stmt) : List (PyStr × PyStr × JValue) :=
  stmts.flatMap (fun s =>
    match s with
    | .upsertQ ps => ps
    | _ => [])

/-- All `(namespace text, key)` pairs of the grouped delete statements in
a compiled put-query list. -/
def deletePairs (stmts : List Stmt) : List (PyStr × PyStr) :=
  stmts.flatMap (fun s =>
    match s with
    | .deleteQ txt keys => keys.map (fun k => (txt, k))
    | _ => [])

/-- Value of the last Put to a given `(namespace, key)` in submission
order, when the group contains one. -/
def lastPutValue (putOps : List (Nat × PutOp)) (ns : List PyStr) (key : PyStr) :
    Option (Option JValue) :=
  putOps.foldl (fun acc p =>
    if p.2.ns = ns ∧ p.2.key = key then some p.2.value else acc) none

/-- Whether a batch outcome is the missing-embedding-config failure. -/
def isEmbCfgError (r : Except Err (List Result)) : Bool :=
  match r with
  | .error .embeddingConfigRequired => true
  | _ => false

/-- First value stored under a key in an association list. -/
def assocFind [DecidableEq K] : List (K × V) → K → Option V
  | [], _ => none
  | kv :: d, k => if kv.1 = k then some kv.2 else assocFind d k

/-- Model of one entry of the `MIGRATIONS` sequence: either a plain SQL
string or a conditional `Migration` whose predicate is a function of the
store environment visible at setup time (the environment type `E` stands
for whatever `check_vector_available` inspects and may change between
setup calls).  Parameter substitution and SQL execution are modelled as
succeeding (all claims under study concern the predicate path; the
`IF NOT EXISTS` migrations do not fail on a healthy backend). -/
inductive MigSpec (E : Type) where
  | plain
  | cond (p : E → Bool)

/-- Highest version recorded in the ledger, the model of
`SELECT v FROM store_migrations ORDER BY v DESC LIMIT 1`. -/
def maxLedger (ledger : List Nat) : Option Nat :=
  ledger.foldl (fun acc v =>
    match acc with
    | none => some v
    | some m => some (max m v)) none

/-- Loop of `PostgresStore.setup` over the pending migrations, starting at
version `v`: a plain migration executes and records its version; a
conditional one evaluates its predicate against the current environment
and, when it is false, is skipped with `continue` — recording nothing.
Returns the versions executed (each is recorded with its execution). -/
def runMigsFrom (env : E) : List (MigSpec E) → Nat → List Nat
  | [], _ => []
  | .plain :: ms, v => v :: runMigsFrom env ms (v + 1)
  | .cond p :: ms, v =>
    if p env then v :: runMigsFrom env ms (v + 1)
    else runMigsFrom env ms (v + 1)

/-- Starting version of a setup run: one past the highest recorded
version (`-1 + 1 = 0` on an empty or absent ledger). -/
def setupStart (ledger : List Nat) : Nat :=
  match maxLedger ledger with
  | none => 0
  | some m => m + 1

/-- Model of `PostgresStore.setup`: read the watermark, walk the
migrations beyond it in order, and return the new ledger together with
the list of migration versions executed during this call. -/
def setupModel (migs : List (MigSpec E)) (env : E) (ledger : List Nat) :
    List Nat × List Nat :=
  let start := setupStart ledger
  let ex := runMigsFrom env (migs.drop start) start
  (ledger ++ ex, ex)

/-- The last Put op addressed to a `(namespace, key)` in submission
order. -/
def lastOpFor (ops : List (Nat × PutOp)) (ns : List PyStr) (key : PyStr) :
    Option PutOp :=
  ops.foldl (fun acc p =>
    if p.2.ns = ns ∧ p.2.key = key then some p.2 else acc) none

/-- First-of-two options, preferring the first when present. -/
def orDefault (x acc : Option β) : Option β :=
  match x with
  | some o => some o
  | none => acc

/-- Concrete Put group for the last-write-wins witness: two Puts to the
same `("a", "k")` key, the second carrying `{"x": 2}`. -/
def putOpsW : List (Nat × PutOp) :=
  [(0, ⟨[pcs "a"], pcs "k", some (jobj [(pcs "x", JValue.num 1 0)])⟩),
   (1, ⟨[pcs "a"], pcs "k", some (jobj [(pcs "x", JValue.num 2 0)])⟩)]

/-- The search-phase embedding-call trace the source prescribes: one call
carrying all pending query texts when a config is set and at least one
request is pending, else no call. -/
def searchCallSpec (cfg : Option EmbeddingConfig)
    (sOps : List (Nat × SearchOp)) : List (List PyStr) :=
  match cfg, reqsSpec cfg 0 sOps with
  | some _, r :: rs => [((r :: rs).map (fun p => p.2))]
  | _, _ => []

/-- The put-phase embedding-call trace the source prescribes: one call
carrying all pending fragment texts when the put compiler collected
pending embedding work, else no call. -/
def putCallSpec (cfg : Option EmbeddingConfig)
    (putOps : List (Nat × PutOp)) : List (List PyStr) :=
  match (_prepare_batch_PUT_queries cfg putOps).2 with
  | some req => [req.map (fun p => p.2.2.2)]
  | none => []

/-- The per-index result writes of the Get phase: every grouped query
contributes one write per `(index, key)` entry it carries. -/
def getWrites (st : StoreState) (gOps : List (Nat × GetOp)) : List (Nat × Result) :=
  (_get_batch_GET_ops_queries gOps).flatMap
    (fun g => g.2.map (fun p => (p.1, getGroupResult st g p.2)))

/-- The per-index result writes of the Search phase, given the compiled
(unpatched) query of each search op: one write per op, holding the items
its query returns after the spec-side query-vector fill. -/
def searchWrites (be : Backend) (cfg : Option EmbeddingConfig) (st : StoreState)
    (sOps : List (Nat × SearchOp)) (qs0 : List SearchQuery) : List (Nat × Result) :=
  (sOps.zip qs0).map (fun p =>
    (p.1.1, Result.items ((runSearchQuery be st (specQuery cfg p.1.2 p.2)).map
      rowToSearchItem)))

/-- The per-index result writes of the ListNamespaces phase. -/
def listWrites (st : StoreState) (lOps : List (Nat × ListNamespacesOp)) :
    List (Nat × Result) :=
  lOps.map (fun p => (p.1, Result.namespaces (runListNsQuery st p.2)))

/-! ## Theorems about the claims -/

/-- Codec round trip on non-empty, separator-free namespaces (shared
helper). -/
theorem ns_codec_roundtrip (ns : List PyStr) (hne : ns ≠ [])
    (hsep : ∀ s ∈ ns, '.' ∉ s) :
    _decode_ns_bytes (.raw (_namespace_to_text ns false)) = ns := by
  show (List.intercalate ['.'] ns).splitOn '.' = ns
  exact List.splitOn_intercalate ns '.' hsep hne

/-- C8: for every non-empty sequence of namespace segments none of which
contains the separator character `.`, decoding the encoded namespace text
returns the original sequence: `decode(encode(ns)) = ns`. -/
theorem C8_namespace_codec_roundtrip (ns : List PyStr) (hne : ns ≠ [])
    (hsep : ∀ s ∈ ns, '.' ∉ s) :
    _decode_ns_bytes (.raw (_namespace_to_text ns false)) = ns :=
  ns_codec_roundtrip ns hne hsep

/-- Witness: the codec round trip at the concrete namespace `("a", "b")`. -/
theorem C8_namespace_codec_roundtrip_witness :
    _decode_ns_bytes (.raw (_namespace_to_text [pcs "a", pcs "b"] false)) =
      [pcs "a", pcs "b"] :=
  C8_namespace_codec_roundtrip [pcs "a", pcs "b"] (by decide) (by decide)

/-- C7 counterexample: the filter `score: $gt 3.2` compiles to the text
comparison `value->>'score' > '3.2'`; the stored numeric score `10` is
numerically greater than `3.2` yet the compiled predicate rejects it,
because the text `"10"` sorts below `"3.2"`. -/
theorem C7_gt_filter_counterexample :
    _get_filter_condition (pcs "score") (pcs "$gt") (JValue.num 32 1) =
      .ok (.textGtC (pcs "score") (pcs "3.2")) ∧
    evalFilterCond (jobj [(pcs "score", JValue.num 10 0)])
      (.textGtC (pcs "score") (pcs "3.2")) = false ∧
    (32 : Rat) / 10 < 10 :=
  ⟨rfl, rfl, by norm_num⟩

/-- C7 (amended): the compiled `score: $gt 3.2` filter matches a stored
item with a numeric score exactly when the score's textual rendering is
lexicographically greater than the text `"3.2"` — a text comparison, not
a numeric one (they agree on same-format decimals such as `3.1`/`3.3`,
but disagree e.g. at score `10`). -/
theorem C7_gt_filter_text_semantics (m : Int) (e : Nat) :
    _get_filter_condition (pcs "score") (pcs "$gt") (JValue.num 32 1) =
      .ok (.textGtC (pcs "score") (pcs "3.2")) ∧
    evalFilterCond (jobj [(pcs "score", JValue.num m e)])
      (.textGtC (pcs "score") (pcs "3.2")) =
      ltChars (pcs "3.2") (renderNum m e) :=
  ⟨rfl, rfl⟩

/-- C9: extraction is total (it is a Lean function) and best-effort: a
list-index token applied to a non-list, an index out of range after
negative-index normalization, a brace fan-out applied to a non-map, a
plain field missing from a map, and a plain field applied to a non-map
each yield the empty contribution for that branch rather than an error. -/
theorem C9_extraction_is_best_effort :
    (∀ (obj : JValue) (token : PyStr) (rest : List PyStr),
      tokStarts '[' token = true → tokEnds ']' token = true →
      (∀ xs, obj ≠ .arr xs) →
      _extract_from_obj obj (token :: rest) = []) ∧
    (∀ (xs : JArr) (token : PyStr) (rest : List PyStr) (i : Int),
      tokStarts '[' token = true → tokEnds ']' token = true →
      (token.drop 1).dropLast ≠ ['*'] →
      pyParseInt ((token.drop 1).dropLast) = some i →
      ¬ (0 ≤ (if i < 0 then (xs.toList.length : Int) + i else i) ∧
          (if i < 0 then (xs.toList.length : Int) + i else i) < (xs.toList.length : Int)) →
      _extract_from_obj (.arr xs) (token :: rest) = []) ∧
    (∀ (obj : JValue) (token : PyStr) (rest : List PyStr),
      (tokStarts '[' token && tokEnds ']' token) = false →
      tokStarts '{' token = true → tokEnds '}' token = true →
      (∀ fs, obj ≠ .obj fs) →
      _extract_from_obj obj (token :: rest) = []) ∧
    (∀ (fs : JObj) (token : PyStr) (rest : List PyStr),
      (tokStarts '[' token && tokEnds ']' token) = false →
      (tokStarts '{' token && tokEnds '}' token) = false →
      token ≠ ['*'] →
      lookupField fs token = none →
      _extract_from_obj (.obj fs) (token :: rest) = []) ∧
    (∀ (obj : JValue) (token : PyStr) (rest : List PyStr),
      (tokStarts '[' token && tokEnds ']' token) = false →
      (tokStarts '{' token && tokEnds '}' token) = false →
      token ≠ ['*'] →
      (∀ fs, obj ≠ .obj fs) →
      _extract_from_obj obj (token :: rest) = []) := by
  refine ⟨?_, ?_, ?_, ?_, ?_⟩
  · intro obj token rest h1 h2 hobj
    cases obj <;> simp [_extract_from_obj, h1, h2]
    exact absurd rfl (hobj _)
  · intro xs token rest i h1 h2 hstar hparse hrange
    simp only [_extract_from_obj, h1, h2, Bool.and_self, if_pos]
    simp only [if_neg hstar, hparse]
    rw [dif_neg hrange]
  · intro obj token rest h0 h1 h2 hobj
    cases obj <;> simp [_extract_from_obj, h0, h1, h2]
    exact absurd rfl (hobj _)
  · intro fs token rest h0 h1 h2 hlook
    simp [_extract_from_obj, h0, h1, h2, hlook]
  · intro obj token rest h0 h1 h2 hobj
    cases obj <;> simp [_extract_from_obj, h0, h1, h2]
    exact absurd rfl (hobj _)

/-- Witness: each best-effort branch evaluated at a concrete input — a
list index on a string, index 5 and index -3 on a two-element list, a
brace fan-out on a number, a missing field on a map, and a field on a
number, all yielding the empty fragment list. -/
theorem C9_extraction_is_best_effort_witness :
    _extract_from_obj (JValue.str (pcs "s")) [pcs "[0]"] = [] ∧
    _extract_from_obj (jarr [JValue.num 1 0, JValue.num 2 0]) [pcs "[5]"] = [] ∧
    _extract_from_obj (jarr [JValue.num 1 0, JValue.num 2 0]) [pcs "[-3]"] = [] ∧
    _extract_from_obj (JValue.num 7 0) [['{', 'a', '}']] = [] ∧
    _extract_from_obj (jobj [(pcs "a", JValue.num 1 0)]) [pcs "b"] = [] ∧
    _extract_from_obj (JValue.num 7 0) [pcs "b"] = [] := by
  have h := C9_extraction_is_best_effort
  refine ⟨h.1 _ _ _ (by decide) (by decide) (fun xs => by simp),
    h.2.1 (JArr.ofList [JValue.num 1 0, JValue.num 2 0]) _ _ 5
      (by decide) (by decide) (by decide) (by decide) (by decide),
    h.2.1 (JArr.ofList [JValue.num 1 0, JValue.num 2 0]) _ _ (-3)
      (by decide) (by decide) (by decide) (by decide) (by decide),
    h.2.2.1 _ _ _ (by decide) (by decide) (by decide) (fun fs => by simp),
    h.2.2.2.1 _ _ _ (by decide) (by decide) (by decide) rfl,
    h.2.2.2.2 _ _ _ (by decide) (by decide) (by decide) (fun fs => by simp)⟩

/-- C10: in a `{...}` fan-out, a listed sub-field whose plain map walk
answers JSON null (which is how the walk reports both a stored null and a
missing field) contributes no fragment; in particular a stored-null field
and an absent field contribute identically. -/
theorem C10_brace_null_contributes_nothing :
    (∀ (obj : JValue) (f : PyStr),
      braceWalk obj (_tokenize_path f) = JValue.null →
      braceFieldContribution obj f = []) ∧
    (∀ (fs : JObj) (t : PyStr) (ts : List PyStr),
      lookupField fs t = some JValue.null →
      braceWalk (JValue.obj fs) (t :: ts) = JValue.null) ∧
    (∀ (fs : JObj) (t : PyStr) (ts : List PyStr),
      lookupField fs t = none →
      braceWalk (JValue.obj fs) (t :: ts) = JValue.null) ∧
    (∀ (obj obj' : JValue) (f : PyStr),
      braceWalk obj (_tokenize_path f) = JValue.null →
      braceWalk obj' (_tokenize_path f) = JValue.null →
      braceFieldContribution obj f = braceFieldContribution obj' f) := by
  have key : ∀ (obj : JValue) (f : PyStr),
      braceWalk obj (_tokenize_path f) = JValue.null →
      braceFieldContribution obj f = [] := by
    intro obj f hw
    unfold braceFieldContribution
    by_cases he : (_tokenize_path f).isEmpty
    · simp [he]
    · simp [he, hw]
  refine ⟨key, ?_, ?_, ?_⟩
  · intro fs t ts hl
    cases ts <;> simp [braceWalk, hl]
  · intro fs t ts hl
    simp [braceWalk, hl]
  · intro obj obj' f h h'
    rw [key obj f h, key obj' f h']

/-- Witness: on the map `{"a": null, "c": {"d": null}}`, the fields `a`,
`b` (absent) and the nested path `c.d` all walk to null and contribute
nothing, and the stored-null field contributes the same as the absent
one. -/
theorem C10_brace_null_contributes_nothing_witness :
    braceFieldContribution
      (jobj [(pcs "a", JValue.null), (pcs "c", jobj [(pcs "d", JValue.null)])])
      (pcs "a") = [] ∧
    braceWalk (jobj [(pcs "a", JValue.null)]) [pcs "a", pcs "x"] = JValue.null ∧
    braceWalk (jobj [(pcs "a", JValue.null)]) [pcs "b"] = JValue.null ∧
    braceFieldContribution (jobj [(pcs "a", JValue.null)]) (pcs "a") =
      braceFieldContribution (jobj []) (pcs "a") := by
  have h := C10_brace_null_contributes_nothing
  refine ⟨h.1 _ _ rfl, ?_, ?_, h.2.2.2 _ _ _ rfl rfl⟩
  · exact h.2.1 (JObj.ofList [(pcs "a", JValue.null)]) (pcs "a") [pcs "x"] rfl
  · exact h.2.2.1 (JObj.ofList [(pcs "a", JValue.null)]) (pcs "b") [] rfl

/-- Every version a setup loop executes is at least its starting version. -/
theorem le_of_mem_runMigsFrom {E : Type} (env : E) (ms : List (MigSpec E)) :
    ∀ (start w : Nat), w ∈ runMigsFrom env ms start → start ≤ w := by
  induction ms with
  | nil => intro start w h; simp [runMigsFrom] at h
  | cons m rest ih =>
    intro start w h
    cases m with
    | plain =>
      simp only [runMigsFrom, List.mem_cons] at h
      rcases h with h | h
      · omega
      · have := ih (start + 1) w h; omega
    | cond p =>
      simp only [runMigsFrom] at h
      by_cases hp : p env
      · rw [if_pos hp] at h
        rcases List.mem_cons.mp h with h | h
        · omega
        · have := ih (start + 1) w h; omega
      · rw [if_neg hp] at h
        have := ih (start + 1) w h; omega

/-- A conditional migration whose predicate is false under the current
environment is not executed by the setup loop. -/
theorem not_mem_runMigsFrom_of_cond_false {E : Type} (env : E) (p : E → Bool)
    (hp : p env = false) (ms : List (MigSpec E)) :
    ∀ (start v : Nat), start ≤ v → ms[v - start]? = some (.cond p) →
      v ∉ runMigsFrom env ms start := by
  induction ms with
  | nil => intro start v _ h; simp at h
  | cons m rest ih =>
    intro start v hs h
    by_cases hv : v = start
    · subst hv
      simp only [Nat.sub_self, List.getElem?_cons_zero, Option.some.injEq] at h
      subst h
      simp only [runMigsFrom, hp, Bool.false_eq_true, if_false]
      intro hmem
      have := le_of_mem_runMigsFrom env rest (v + 1) v hmem
      omega
    · have hlt : start < v := lt_of_le_of_ne hs (fun hh => hv hh.symm)
      have hidx : rest[v - (start + 1)]? = some (.cond p) := by
        have : v - start = (v - (start + 1)) + 1 := by omega
        rw [this] at h
        simpa using h
      have hrec := ih (start + 1) v (by omega) hidx
      cases m with
      | plain =>
        simp only [runMigsFrom, List.mem_cons]
        rintro (h1 | h1)
        · exact hv h1
        · exact hrec h1
      | cond q =>
        simp only [runMigsFrom]
        by_cases hq : q env
        · rw [if_pos hq]
          simp only [List.mem_cons]
          rintro (h1 | h1)
          · exact hv h1
          · exact hrec h1
        · rw [if_neg hq]
          exact hrec

/-- A conditional migration whose predicate is true under the current
environment is executed by the setup loop when it is in range. -/
theorem mem_runMigsFrom_of_cond_true {E : Type} (env : E) (p : E → Bool)
    (hp : p env = true) (ms : List (MigSpec E)) :
    ∀ (start v : Nat), start ≤ v → ms[v - start]? = some (.cond p) →
      v ∈ runMigsFrom env ms start := by
  induction ms with
  | nil => intro start v _ h; simp at h
  | cons m rest ih =>
    intro start v hs h
    by_cases hv : v = start
    · subst hv
      simp only [Nat.sub_self, List.getElem?_cons_zero, Option.some.injEq] at h
      subst h
      simp [runMigsFrom, hp]
    · have hlt : start < v := lt_of_le_of_ne hs (fun hh => hv hh.symm)
      have hidx : rest[v - (start + 1)]? = some (.cond p) := by
        have : v - start = (v - (start + 1)) + 1 := by omega
        rw [this] at h
        simpa using h
      have hrec := ih (start + 1) v (by omega) hidx
      cases m with
      | plain => simp only [runMigsFrom, List.mem_cons]; right; exact hrec
      | cond q =>
        simp only [runMigsFrom]
        by_cases hq : q env
        · rw [if_pos hq]; exact List.mem_cons.mpr (Or.inr hrec)
        · rw [if_neg hq]; exact hrec

/-- C2 counterexample: one conditional migration whose predicate reports
the boolean environment.  A first setup run under `false` records nothing
(the ledger stays empty, so version 0 is not consumed), and a second
setup run under `true` re-evaluates the predicate and executes the
migration — contradicting both halves of the claim. -/
theorem C2_skip_consumes_version_counterexample :
    (setupModel [MigSpec.cond (fun e : Bool => e)] false []).1 = [] ∧
    (setupModel [MigSpec.cond (fun e : Bool => e)] true
      (setupModel [MigSpec.cond (fun e : Bool => e)] false []).1).2 = [0] :=
  ⟨rfl, rfl⟩

/-- C2 (amended): a migration whose predicate evaluates false during a
setup run is skipped without consuming a version slot: it is neither
executed nor recorded, and the ledger advances only by the versions
actually executed.  Consequently a later setup call re-evaluates it —
and executes it — whenever its predicate then returns true and no later
migration recorded a higher version in the meantime. -/
theorem C2_predicate_skip_not_recorded {E : Type} (migs : List (MigSpec E))
    (env : E) (ledger : List Nat) (v : Nat) (p : E → Bool)
    (hv : migs[v]? = some (.cond p)) (hstart : setupStart ledger ≤ v)
    (hp : p env = false) :
    v ∉ (setupModel migs env ledger).2 ∧
    (setupModel migs env ledger).1 = ledger ++ (setupModel migs env ledger).2 ∧
    (v ∈ (setupModel migs env ledger).1 ↔ v ∈ ledger) ∧
    (∀ env' : E, setupStart (setupModel migs env ledger).1 ≤ v → p env' = true →
      v ∈ (setupModel migs env' (setupModel migs env ledger).1).2) := by
  have hidx : ∀ s : Nat, s ≤ v → (migs.drop s)[v - s]? = some (.cond p) := by
    intro s hs
    rw [List.getElem?_drop]
    have : s + (v - s) = v := by omega
    rw [this]; exact hv
  have hnot : v ∉ (setupModel migs env ledger).2 :=
    not_mem_runMigsFrom_of_cond_false env p hp (migs.drop (setupStart ledger))
      (setupStart ledger) v hstart (hidx _ hstart)
  refine ⟨hnot, rfl, ?_, ?_⟩
  · constructor
    · intro h
      rcases List.mem_append.mp h with h | h
      · exact h
      · exact absurd h hnot
    · intro h; exact List.mem_append.mpr (Or.inl h)
  · intro env' hstart2 hp'
    exact mem_runMigsFrom_of_cond_true env' p hp'
      (migs.drop (setupStart (setupModel migs env ledger).1))
      (setupStart (setupModel migs env ledger).1) v hstart2 (hidx _ hstart2)

/-- Witness: the amended C2 statement applied to the single conditional
migration over a boolean environment, first run under `false`:
version 0 is not executed, the ledger stays empty, and the second run
under `true` executes version 0. -/
theorem C2_predicate_skip_not_recorded_witness :
    0 ∉ (setupModel [MigSpec.cond (fun e : Bool => e)] false []).2 ∧
    0 ∈ (setupModel [MigSpec.cond (fun e : Bool => e)] true
      (setupModel [MigSpec.cond (fun e : Bool => e)] false []).1).2 := by
  have h := C2_predicate_skip_not_recorded [MigSpec.cond (fun e : Bool => e)]
    false [] 0 (fun e : Bool => e) rfl (by decide) rfl
  exact ⟨h.1, h.2.2.2 true (by decide) rfl⟩

/-! ### Association-list and grouping lemmas -/

theorem assocFind_dictInsert [DecidableEq K] (d : List (K × V)) (k k' : K) (v : V) :
    assocFind (dictInsert d k v) k' = if k' = k then some v else assocFind d k' := by
  induction d with
  | nil =>
    by_cases h : k' = k
    · subst h; simp [dictInsert, assocFind]
    · have h' : ¬ k = k' := fun hh => h hh.symm
      simp [dictInsert, assocFind, h, h']
  | cons kv d ih =>
    simp only [dictInsert]
    by_cases h1 : kv.1 = k
    · rw [if_pos h1]
      by_cases h2 : k' = k
      · subst h2; simp [assocFind]
      · have h2' : ¬ k = k' := fun hh => h2 hh.symm
        have h3 : ¬ kv.1 = k' := fun hh => h2 (by rw [← hh, h1])
        simp [assocFind, h2, h2', h3]
    · rw [if_neg h1]
      by_cases h2 : kv.1 = k'
      · have h3 : ¬ k' = k := fun hh => h1 (hh ▸ h2)
        simp [assocFind, h2, h3]
      · simp [assocFind, h2, ih]

theorem dictInsert_keys [DecidableEq K] (d : List (K × V)) (k : K) (v : V) :
    (dictInsert d k v).map Prod.fst =
      if k ∈ d.map Prod.fst then d.map Prod.fst else d.map Prod.fst ++ [k] := by
  induction d with
  | nil => simp [dictInsert]
  | cons kv d ih =>
    simp only [dictInsert]
    by_cases h1 : kv.1 = k
    · rw [if_pos h1]; simp [h1]
    · rw [if_neg h1]
      have h1' : ¬ k = kv.1 := fun hh => h1 hh.symm
      simp only [List.map_cons, List.mem_cons, h1', false_or]
      by_cases h2 : k ∈ d.map Prod.fst <;> simp [h2, ih]

theorem dictInsert_nodupKeys [DecidableEq K] (d : List (K × V)) (k : K) (v : V)
    (h : (d.map Prod.fst).Nodup) : ((dictInsert d k v).map Prod.fst).Nodup := by
  rw [dictInsert_keys]
  by_cases hk : k ∈ d.map Prod.fst
  · rw [if_pos hk]; exact h
  · rw [if_neg hk, List.nodup_append]
    refine ⟨h, List.nodup_singleton k, ?_⟩
    intro a ha hmem
    rw [List.mem_singleton] at hmem
    subst hmem
    exact hk ha

theorem mem_dictInsert [DecidableEq K] (d : List (K × V)) (k : K) (v : V)
    (kv : K × V) (h : kv ∈ dictInsert d k v) : kv ∈ d ∨ kv = (k, v) := by
  induction d with
  | nil => simp [dictInsert] at h; simp [h]
  | cons kv' d ih =>
    simp only [dictInsert] at h
    by_cases h1 : kv'.1 = k
    · rw [if_pos h1] at h
      rcases List.mem_cons.mp h with h | h
      · right; exact h
      · left; exact List.mem_cons_of_mem _ h
    · rw [if_neg h1] at h
      rcases List.mem_cons.mp h with h | h
      · left; simp [h]
      · rcases ih h with h | h
        · left; exact List.mem_cons_of_mem _ h
        · right; exact h

theorem filter_eq_nil_of_not_mem_keys [DecidableEq K] (d : List (K × V)) (k : K)
    (h : k ∉ d.map Prod.fst) :
    d.filter (fun kv => decide (kv.1 = k)) = [] := by
  induction d with
  | nil => rfl
  | cons kv d ih =>
    simp only [List.map_cons, List.mem_cons] at h
    push_neg at h
    have hne : ¬ kv.1 = k := fun hh => h.1 hh.symm
    simp [List.filter_cons, hne, ih h.2]

theorem filter_keys_of_nodup [DecidableEq K] (d : List (K × V)) (k : K)
    (h : (d.map Prod.fst).Nodup) :
    d.filter (fun kv => decide (kv.1 = k)) =
      (match assocFind d k with
       | some v => [(k, v)]
       | none => []) := by
  induction d with
  | nil => rfl
  | cons kv d ih =>
    simp only [List.map_cons, List.nodup_cons] at h
    by_cases h1 : kv.1 = k
    · subst h1
      have hrest : d.filter (fun kv' => decide (kv'.1 = kv.1)) = [] :=
        filter_eq_nil_of_not_mem_keys d kv.1 h.1
      simp [List.filter_cons, assocFind, hrest]
    · simp [List.filter_cons, assocFind, h1, ih h.2]

theorem filter_flatMap_comm (l : List α) (f : α → List β) (p : β → Bool) :
    (l.flatMap f).filter p = l.flatMap (fun a => (f a).filter p) := by
  induction l with
  | nil => rfl
  | cons a as ih => simp [List.flatMap_cons, List.filter_append, ih]

theorem groupItems_addToGroup [DecidableEq K] (gs : List (K × List β)) (k k' : K) (b : β) :
    groupItems (addToGroup gs k b) k' =
      if k = k' then groupItems gs k' ++ [b] else groupItems gs k' := by
  induction gs with
  | nil =>
    by_cases h : k = k'
    · subst h; simp [addToGroup, groupItems]
    · simp [addToGroup, groupItems, h, fun hh : k' = k => h hh.symm]
  | cons g gs ih =>
    simp only [addToGroup]
    by_cases h1 : g.1 = k
    · subst h1
      by_cases h2 : g.1 = k'
      · subst h2; simp [groupItems]
      · have : ¬ g.1 = k' := h2
        simp [groupItems, this, fun hh : g.1 = k' => h2 hh]
    · by_cases h2 : g.1 = k'
      · have h3 : ¬ k = k' := fun hh => h1 (h2.trans hh.symm)
        have h4 : ¬ k' = k := fun hh => h3 hh.symm
        simp [groupItems, h1, h2, h3, h4]
      · simp [groupItems, h1, h2, ih]

theorem groupItems_groupPairs_aux [DecidableEq K] (keyf : α → K) (itemf : α → β)
    (xs : List α) (k : K) :
    ∀ gs0 : List (K × List β),
      groupItems (xs.foldl (fun gs a => addToGroup gs (keyf a) (itemf a)) gs0) k =
        groupItems gs0 k ++ (xs.filter (fun a => decide (keyf a = k))).map itemf := by
  induction xs with
  | nil => intro gs0; simp
  | cons a xs ih =>
    intro gs0
    simp only [List.foldl_cons]
    rw [ih]
    rw [groupItems_addToGroup]
    by_cases h : keyf a = k
    · simp [List.filter_cons, h]
    · simp [List.filter_cons, h]

theorem groupItems_groupPairs [DecidableEq K] (keyf : α → K) (itemf : α → β)
    (xs : List α) (k : K) :
    groupItems (groupPairs keyf itemf xs) k =
      (xs.filter (fun a => decide (keyf a = k))).map itemf := by
  have := groupItems_groupPairs_aux keyf itemf xs k []
  simpa [groupPairs, groupItems] using this

theorem addToGroup_keys [DecidableEq K] (gs : List (K × List β)) (k : K) (b : β) :
    (addToGroup gs k b).map Prod.fst =
      if k ∈ gs.map Prod.fst then gs.map Prod.fst else gs.map Prod.fst ++ [k] := by
  induction gs with
  | nil => simp [addToGroup]
  | cons g gs ih =>
    simp only [addToGroup]
    by_cases h1 : g.1 = k
    · rw [if_pos h1]; simp [h1]
    · rw [if_neg h1]
      have h1' : ¬ k = g.1 := fun hh => h1 hh.symm
      simp only [List.map_cons, List.mem_cons, h1', false_or]
      by_cases h2 : k ∈ gs.map Prod.fst <;> simp [h2, ih]

theorem addToGroup_nodupKeys [DecidableEq K] (gs : List (K × List β)) (k : K) (b : β)
    (h : (gs.map Prod.fst).Nodup) : ((addToGroup gs k b).map Prod.fst).Nodup := by
  rw [addToGroup_keys]
  by_cases hk : k ∈ gs.map Prod.fst
  · rw [if_pos hk]; exact h
  · rw [if_neg hk, List.nodup_append]
    refine ⟨h, List.nodup_singleton k, ?_⟩
    intro a ha hmem
    rw [List.mem_singleton] at hmem
    subst hmem
    exact hk ha

theorem groupPairs_nodupKeys [DecidableEq K] (keyf : α → K) (itemf : α → β)
    (xs : List α) : ((groupPairs keyf itemf xs).map Prod.fst).Nodup := by
  suffices h : ∀ gs0 : List (K × List β), (gs0.map Prod.fst).Nodup →
      ((xs.foldl (fun gs a => addToGroup gs (keyf a) (itemf a)) gs0).map Prod.fst).Nodup by
    exact h [] (by simp)
  induction xs with
  | nil => intro gs0 h0; simpa using h0
  | cons a xs ih =>
    intro gs0 h0
    exact ih _ (addToGroup_nodupKeys gs0 (keyf a) (itemf a) h0)

theorem mem_keys_addToGroup [DecidableEq K] (gs : List (K × List β)) (k k' : K) (b : β) :
    k' ∈ (addToGroup gs k b).map Prod.fst ↔ k' ∈ gs.map Prod.fst ∨ k' = k := by
  rw [addToGroup_keys]
  by_cases hk : k ∈ gs.map Prod.fst
  · simp only [if_pos hk]
    constructor
    · intro h; exact Or.inl h
    · rintro (h | h)
      · exact h
      · exact h ▸ hk
  · simp [hk]

theorem mem_keys_groupPairs [DecidableEq K] (keyf : α → K) (itemf : α → β)
    (xs : List α) (k : K) :
    k ∈ (groupPairs keyf itemf xs).map Prod.fst ↔ ∃ a ∈ xs, keyf a = k := by
  suffices h : ∀ gs0 : List (K × List β),
      k ∈ ((xs.foldl (fun gs a => addToGroup gs (keyf a) (itemf a)) gs0).map Prod.fst) ↔
        k ∈ gs0.map Prod.fst ∨ ∃ a ∈ xs, keyf a = k by
    simpa [groupPairs] using h []
  induction xs with
  | nil => intro gs0; simp
  | cons a xs ih =>
    intro gs0
    simp only [List.foldl_cons]
    rw [ih]
    rw [mem_keys_addToGroup]
    constructor
    · rintro ((h | h) | h)
      · exact Or.inl h
      · exact Or.inr ⟨a, List.mem_cons_self a xs, h.symm⟩
      · rcases h with ⟨x, hx, hk⟩
        exact Or.inr ⟨x, List.mem_cons_of_mem a hx, hk⟩
    · rintro (h | ⟨x, hx, hk⟩)
      · exact Or.inl (Or.inl h)
      · rcases List.mem_cons.mp hx with h | h
        · subst h; exact Or.inl (Or.inr hk.symm)
        · exact Or.inr ⟨x, h, hk⟩

theorem group_eq_groupItems [DecidableEq K] (gs : List (K × List β))
    (hnd : (gs.map Prod.fst).Nodup) (k : K) (ys : List β) (h : (k, ys) ∈ gs) :
    ys = groupItems gs k := by
  induction gs with
  | nil => simp at h
  | cons g gs ih =>
    simp only [List.map_cons, List.nodup_cons] at hnd
    rcases List.mem_cons.mp h with h | h
    · rw [← h]; simp [groupItems]
    · have hne : ¬ g.1 = k := by
        intro hh
        exact hnd.1 (hh ▸ (List.mem_map.mpr ⟨(k, ys), h, rfl⟩))
      simp only [groupItems, hne, if_false]
      exact ih hnd.2 h

/-- Namespace encoding is injective on valid (non-empty, dot-free)
namespaces. -/
theorem namespace_text_injective (a b : List PyStr) (ha : a ≠ []) (hb : b ≠ [])
    (hda : ∀ s ∈ a, '.' ∉ s) (hdb : ∀ s ∈ b, '.' ∉ s)
    (h : _namespace_to_text a false = _namespace_to_text b false) : a = b := by
  have ha' := ns_codec_roundtrip a ha hda
  have hb' := ns_codec_roundtrip b hb hdb
  rw [← ha', ← hb', h]

/-! ### Last-write-wins lemmas for the Put compiler (C5) -/

theorem foldl_lastPick {α β : Type _} (cond : α → Prop) [DecidablePred cond]
    (f : α → β) (ops : List α) :
    ∀ acc : Option β,
      ops.foldl (fun acc p => if cond p then some (f p) else acc) acc =
        orDefault (ops.foldl (fun acc p => if cond p then some (f p) else acc) none) acc := by
  induction ops with
  | nil => intro acc; simp [orDefault]
  | cons p ops ih =>
    intro acc
    simp only [List.foldl_cons]
    by_cases hc : cond p
    · rw [if_pos hc, if_pos hc, ih (some (f p))]
      cases ops.foldl (fun acc p => if cond p then some (f p) else acc) none <;> simp [orDefault]
    · rw [if_neg hc, if_neg hc, ih acc]

theorem lastPutValue_eq_map (ops : List (Nat × PutOp)) (ns : List PyStr) (key : PyStr) :
    lastPutValue ops ns key = (lastOpFor ops ns key).map (fun op => op.value) := by
  suffices h : ∀ acc : Option PutOp,
      ops.foldl (fun acc p =>
        if p.2.ns = ns ∧ p.2.key = key then some p.2.value else acc)
        (acc.map (fun op => op.value)) =
      (ops.foldl (fun acc p =>
        if p.2.ns = ns ∧ p.2.key = key then some p.2 else acc) acc).map
          (fun op => op.value) by
    simpa [lastPutValue, lastOpFor] using h none
  induction ops with
  | nil => intro acc; simp
  | cons p ops ih =>
    intro acc
    simp only [List.foldl_cons]
    by_cases hc : p.2.ns = ns ∧ p.2.key = key
    · rw [if_pos hc, if_pos hc]
      have := ih (some p.2)
      simpa using this
    · rw [if_neg hc, if_neg hc]
      exact ih acc

theorem lastOpFor_some_exists (ops : List (Nat × PutOp)) (ns : List PyStr)
    (key : PyStr) (op : PutOp) (h : lastOpFor ops ns key = some op) :
    ∃ p ∈ ops, p.2 = op ∧ p.2.ns = ns ∧ p.2.key = key := by
  suffices hgen : ∀ (acc : Option PutOp),
      ops.foldl (fun acc p =>
        if p.2.ns = ns ∧ p.2.key = key then some p.2 else acc) acc = some op →
      (∃ p ∈ ops, p.2 = op ∧ p.2.ns = ns ∧ p.2.key = key) ∨ acc = some op by
    rcases hgen none h with h1 | h1
    · exact h1
    · simp at h1
  clear h
  induction ops with
  | nil => intro acc h1; right; simpa using h1
  | cons p ops ih =>
    intro acc h1
    simp only [List.foldl_cons] at h1
    by_cases hc : p.2.ns = ns ∧ p.2.key = key
    · rw [if_pos hc] at h1
      rcases ih (some p.2) h1 with h2 | h2
      · rcases h2 with ⟨q, hq, hqe⟩
        exact Or.inl ⟨q, List.mem_cons_of_mem _ hq, hqe⟩
      · simp only [Option.some.injEq] at h2
        exact Or.inl ⟨p, List.mem_cons_self _ _, h2, hc⟩
    · rw [if_neg hc] at h1
      rcases ih acc h1 with h2 | h2
      · rcases h2 with ⟨q, hq, hqe⟩
        exact Or.inl ⟨q, List.mem_cons_of_mem _ hq, hqe⟩
      · exact Or.inr h2

theorem assocFind_dedupped (ops : List (Nat × PutOp)) (ns : List PyStr) (key : PyStr) :
    assocFind (deduppedPutOps ops) (ns, key) = lastOpFor ops ns key := by
  suffices h : ∀ d : List ((List PyStr × PyStr) × PutOp),
      assocFind (ops.foldl (fun d p => dictInsert d (p.2.ns, p.2.key) p.2) d) (ns, key) =
        orDefault (lastOpFor ops ns key) (assocFind d (ns, key)) by
    have h0 := h []
    cases hl : lastOpFor ops ns key <;>
      simpa [deduppedPutOps, hl, assocFind, orDefault] using h0
  induction ops with
  | nil => intro d; simp [lastOpFor, orDefault]
  | cons p ops ih =>
    intro d
    simp only [List.foldl_cons]
    rw [ih (dictInsert d (p.2.ns, p.2.key) p.2)]
    have hcons : lastOpFor ((p :: ops) : List (Nat × PutOp)) ns key =
        orDefault (lastOpFor ops ns key)
          (if p.2.ns = ns ∧ p.2.key = key then some p.2 else none) := by
      unfold lastOpFor
      simp only [List.foldl_cons]
      exact foldl_lastPick (fun q : Nat × PutOp => q.2.ns = ns ∧ q.2.key = key)
        (fun q => q.2) ops (if p.2.ns = ns ∧ p.2.key = key then some p.2 else none)
    rw [hcons]
    cases hl : lastOpFor ops ns key with
    | some o => simp [orDefault]
    | none =>
      simp only [orDefault]
      rw [assocFind_dictInsert]
      by_cases hc : p.2.ns = ns ∧ p.2.key = key
      · have hpair : (ns, key) = (p.2.ns, p.2.key) := by
          rw [hc.1, hc.2]
        simp [hc, hpair]
      · have hpair : ¬ (ns, key) = (p.2.ns, p.2.key) := by
          intro hh
          rw [Prod.mk.injEq] at hh
          exact hc ⟨hh.1.symm, hh.2.symm⟩
        simp [hc, hpair]

theorem mem_dedupped (ops : List (Nat × PutOp)) (kv : (List PyStr × PyStr) × PutOp)
    (h : kv ∈ deduppedPutOps ops) :
    kv.1 = (kv.2.ns, kv.2.key) ∧ ∃ p ∈ ops, p.2 = kv.2 := by
  suffices hgen : ∀ d : List ((List PyStr × PyStr) × PutOp),
      kv ∈ ops.foldl (fun d p => dictInsert d (p.2.ns, p.2.key) p.2) d →
      kv ∈ d ∨ (kv.1 = (kv.2.ns, kv.2.key) ∧ ∃ p ∈ ops, p.2 = kv.2) by
    rcases hgen [] h with h1 | h1
    · simp at h1
    · exact h1
  clear h
  induction ops with
  | nil => intro d h1; left; simpa using h1
  | cons p ops ih =>
    intro d h1
    simp only [List.foldl_cons] at h1
    rcases ih (dictInsert d (p.2.ns, p.2.key) p.2) h1 with h2 | h2
    · rcases mem_dictInsert _ _ _ _ h2 with h3 | h3
      · left; exact h3
      · right
        refine ⟨by rw [h3], p, List.mem_cons_self _ _, by rw [h3]⟩
    · right
      rcases h2 with ⟨he, q, hq, hqe⟩
      exact ⟨he, q, List.mem_cons_of_mem _ hq, hqe⟩

theorem dedupped_nodupKeys (ops : List (Nat × PutOp)) :
    ((deduppedPutOps ops).map Prod.fst).Nodup := by
  suffices h : ∀ d : List ((List PyStr × PyStr) × PutOp), (d.map Prod.fst).Nodup →
      (((ops.foldl (fun d p => dictInsert d (p.2.ns, p.2.key) p.2) d)).map Prod.fst).Nodup by
    exact h [] (by simp)
  induction ops with
  | nil => intro d hd; simpa using hd
  | cons p ops ih =>
    intro d hd
    exact ih _ (dictInsert_nodupKeys d _ _ hd)

theorem assocFind_mem [DecidableEq K] (d : List (K × V)) (k : K) (v : V)
    (h : assocFind d k = some v) : (k, v) ∈ d := by
  induction d with
  | nil => simp [assocFind] at h
  | cons kv d ih =>
    simp only [assocFind] at h
    by_cases h1 : kv.1 = k
    · rw [if_pos h1] at h
      simp only [Option.some.injEq] at h
      have hkv : kv = (k, v) := by
        calc kv = (kv.1, kv.2) := rfl
          _ = (k, v) := by rw [h1, h]
      exact List.mem_cons.mpr (Or.inl hkv.symm)
    · rw [if_neg h1] at h
      exact List.mem_cons_of_mem _ (ih h)

theorem upsertTriples_nil : upsertTriples [] = [] := rfl

theorem upsertTriples_deleteQ_cons (t : PyStr) (ks : List PyStr) (rest : List Stmt) :
    upsertTriples (Stmt.deleteQ t ks :: rest) = upsertTriples rest := rfl

theorem upsertTriples_upsertQ_cons (ps : List (PyStr × PyStr × JValue)) (rest : List Stmt) :
    upsertTriples (Stmt.upsertQ ps :: rest) = ps ++ upsertTriples rest := rfl

theorem deletePairs_nil : deletePairs [] = [] := rfl

theorem deletePairs_deleteQ_cons (t : PyStr) (ks : List PyStr) (rest : List Stmt) :
    deletePairs (Stmt.deleteQ t ks :: rest) =
      ks.map (fun k => (t, k)) ++ deletePairs rest := rfl

theorem deletePairs_upsertQ_cons (ps : List (PyStr × PyStr × JValue)) (rest : List Stmt) :
    deletePairs (Stmt.upsertQ ps :: rest) = deletePairs rest := rfl

theorem upsertTriples_deleteStmts (gs : List (List PyStr × List PyStr)) (rest : List Stmt) :
    upsertTriples ((gs.map (fun g => Stmt.deleteQ (_namespace_to_text g.1 false) g.2)) ++ rest) =
      upsertTriples rest := by
  induction gs with
  | nil => rfl
  | cons g gs ih =>
    rw [List.map_cons, List.cons_append, upsertTriples_deleteQ_cons, ih]

theorem deletePairs_deleteStmts (gs : List (List PyStr × List PyStr)) (rest : List Stmt) :
    deletePairs ((gs.map (fun g => Stmt.deleteQ (_namespace_to_text g.1 false) g.2)) ++ rest) =
      gs.flatMap (fun g => g.2.map (fun k => (_namespace_to_text g.1 false, k))) ++
        deletePairs rest := by
  induction gs with
  | nil => rfl
  | cons g gs ih =>
    rw [List.map_cons, List.cons_append, deletePairs_deleteQ_cons, ih,
      List.flatMap_cons, List.append_assoc]

theorem upsertTriples_prepare (cfg : Option EmbeddingConfig) (putOps : List (Nat × PutOp)) :
    upsertTriples (_prepare_batch_PUT_queries cfg putOps).1 =
      (((deduppedPutOps putOps).map (fun kv => kv.2)).filter
          (fun op => op.value.isSome)).map
        (fun op => (_namespace_to_text op.ns false, op.key, op.value.getD .null)) := by
  unfold _prepare_batch_PUT_queries
  simp only [List.partition_eq_filter_filter]
  rw [upsertTriples_deleteStmts]
  by_cases hi : (((deduppedPutOps putOps).map (fun kv => kv.2)).filter
      (fun op => op.value.isSome)).isEmpty
  · rw [if_pos hi]
    rw [List.isEmpty_iff] at hi
    rw [hi, upsertTriples_nil]
    rfl
  · rw [if_neg hi]
    rw [upsertTriples_upsertQ_cons, upsertTriples_nil, List.append_nil]

theorem deletePairs_prepare (cfg : Option EmbeddingConfig) (putOps : List (Nat × PutOp)) :
    deletePairs (_prepare_batch_PUT_queries cfg putOps).1 =
      (groupPairs (fun op : PutOp => op.ns) (fun op => op.key)
          (((deduppedPutOps putOps).map (fun kv => kv.2)).filter
            (fun op => !op.value.isSome))).flatMap
        (fun g => g.2.map (fun k => (_namespace_to_text g.1 false, k))) := by
  unfold _prepare_batch_PUT_queries
  simp only [List.partition_eq_filter_filter]
  rw [deletePairs_deleteStmts]
  by_cases hi : (((deduppedPutOps putOps).map (fun kv => kv.2)).filter
      (fun op => op.value.isSome)).isEmpty
  · rw [if_pos hi]
    rw [deletePairs_nil, List.append_nil]
    rfl
  · rw [if_neg hi]
    rw [deletePairs_upsertQ_cons, deletePairs_nil, List.append_nil]
    rfl

theorem filter_comm' (l : List α) (p q : α → Bool) :
    (l.filter p).filter q = (l.filter q).filter p := by
  rw [List.filter_filter, List.filter_filter]
  apply List.filter_congr
  intro a _
  cases p a <;> cases q a <;> rfl

theorem filter_shuffle (l : List α) (r p q : α → Bool) :
    ((l.filter r).filter p).filter q = (l.filter (fun a => p a && q a)).filter r := by
  rw [List.filter_filter, List.filter_filter, List.filter_filter]
  apply List.filter_congr
  intro a _
  cases r a <;> cases p a <;> cases q a <;> rfl

theorem filter_eq_nil_of_forall (l : List α) (p : α → Bool)
    (h : ∀ a ∈ l, p a = false) : l.filter p = [] := by
  induction l with
  | nil => rfl
  | cons a l ih =>
    rw [List.filter_cons, if_neg (by simp [h a (List.mem_cons_self a l)]),
      ih (fun b hb => h b (List.mem_cons_of_mem a hb))]

theorem flatMap_groups_single [DecidableEq K] (gs : List (K × List β))
    (f : K → List β → List γ) (k : K) (hnd : (gs.map Prod.fst).Nodup)
    (hother : ∀ g ∈ gs, g.1 ≠ k → f g.1 g.2 = []) :
    gs.flatMap (fun g => f g.1 g.2) =
      if k ∈ gs.map Prod.fst then f k (groupItems gs k) else [] := by
  induction gs with
  | nil => simp
  | cons g gs ih =>
    simp only [List.map_cons, List.nodup_cons] at hnd
    by_cases hk : g.1 = k
    · subst hk
      rw [List.flatMap_cons]
      have hother' : ∀ g' ∈ gs, g'.1 ≠ g.1 → f g'.1 g'.2 = [] := fun g' hg' =>
        hother g' (List.mem_cons_of_mem _ hg')
      have hrest : gs.flatMap (fun g' => f g'.1 g'.2) = [] := by
        rw [ih hnd.2 hother', if_neg hnd.1]
      rw [hrest, List.append_nil]
      simp only [List.map_cons]
      have hmem : g.1 ∈ g.1 :: gs.map Prod.fst := List.mem_cons_self _ _
      rw [if_pos hmem]
      simp [groupItems]
    · rw [List.flatMap_cons]
      rw [hother g (List.mem_cons_self _ _) hk, List.nil_append]
      have hother' : ∀ g' ∈ gs, g'.1 ≠ k → f g'.1 g'.2 = [] := fun g' hg' =>
        hother g' (List.mem_cons_of_mem _ hg')
      rw [ih hnd.2 hother']
      simp only [List.map_cons]
      have hkk : ¬ k = g.1 := fun hh => hk hh.symm
      have hcond : (k ∈ g.1 :: gs.map Prod.fst) ↔ k ∈ gs.map Prod.fst := by
        simp [hkk]
      have hgi : groupItems (g :: gs) k = groupItems gs k := by
        simp [groupItems, hk]
      rw [hgi]
      by_cases hm : k ∈ gs.map Prod.fst
      · rw [if_pos hm, if_pos (hcond.mpr hm)]
      · rw [if_neg hm, if_neg (fun hh => hm (hcond.mp hh))]

theorem pair_filter_compute (ys : List PyStr) (tx : PyStr) (key : PyStr) :
    (ys.map (fun kk => (tx, kk))).filter (fun d => decide (d = (tx, key))) =
      (ys.filter (fun kk => decide (kk = key))).map (fun kk => (tx, kk)) := by
  rw [List.filter_map]
  congr 1
  apply List.filter_congr
  intro kk _
  simp only [Function.comp]
  apply decide_eq_decide.mpr
  rw [Prod.mk.injEq]
  simp

theorem keymap_filter (l : List PutOp) (key : PyStr) :
    (l.map (fun op => op.key)).filter (fun kk => decide (kk = key)) =
      (l.filter (fun op => decide (op.key = key))).map (fun op => op.key) := by
  rw [List.filter_map]
  rfl

theorem vals_filter_char (putOps : List (Nat × PutOp)) (ns : List PyStr) (key : PyStr)
    (op₀ : PutOp) (hfind : assocFind (deduppedPutOps putOps) (ns, key) = some op₀) :
    ((deduppedPutOps putOps).map (fun kv => kv.2)).filter
      (fun op => decide (op.ns = ns ∧ op.key = key)) = [op₀] := by
  rw [List.filter_map]
  have hcg : (deduppedPutOps putOps).filter
        ((fun op => decide (op.ns = ns ∧ op.key = key)) ∘ (fun kv => kv.2)) =
      (deduppedPutOps putOps).filter (fun kv => decide (kv.1 = (ns, key))) := by
    apply List.filter_congr
    intro kv hkv
    have hk := (mem_dedupped putOps kv hkv).1
    simp only [Function.comp]
    apply decide_eq_decide.mpr
    rw [hk, Prod.mk.injEq]
  rw [hcg, filter_keys_of_nodup _ _ (dedupped_nodupKeys putOps), hfind]
  rfl

/-- C5: within one batch, among the Puts addressed to one
`(namespace, key)` only the last in submission order takes effect: if its
value is non-null the compiled upsert parameters contain exactly one row
for that key, carrying that value, and the key is absent from the delete
set; if its value is null the key appears exactly once in the delete set
and no upsert row is compiled for it.  Earlier Puts to the key contribute
nothing.  (Namespaces are assumed valid: non-empty, dot-free segments —
as the store's public API requires.) -/
theorem C5_put_last_write_wins (cfg : Option EmbeddingConfig)
    (putOps : List (Nat × PutOp)) (ns : List PyStr) (key : PyStr)
    (hvalid : ∀ p ∈ putOps, p.2.ns ≠ [] ∧ ∀ s ∈ p.2.ns, '.' ∉ s) :
    (∀ v : JValue, lastPutValue putOps ns key = some (some v) →
      (upsertTriples (_prepare_batch_PUT_queries cfg putOps).1).filter
          (fun t => decide (t.1 = _namespace_to_text ns false ∧ t.2.1 = key)) =
        [(_namespace_to_text ns false, key, v)] ∧
      (deletePairs (_prepare_batch_PUT_queries cfg putOps).1).filter
          (fun d => decide (d = (_namespace_to_text ns false, key))) = []) ∧
    (lastPutValue putOps ns key = some none →
      (deletePairs (_prepare_batch_PUT_queries cfg putOps).1).filter
          (fun d => decide (d = (_namespace_to_text ns false, key))) =
        [(_namespace_to_text ns false, key)] ∧
      (upsertTriples (_prepare_batch_PUT_queries cfg putOps).1).filter
          (fun t => decide (t.1 = _namespace_to_text ns false ∧ t.2.1 = key)) = []) := by
  have hvv : ∀ op ∈ (deduppedPutOps putOps).map (fun kv => kv.2),
      op.ns ≠ [] ∧ ∀ s ∈ op.ns, '.' ∉ s := by
    intro op hop
    rcases List.mem_map.mp hop with ⟨kv, hkv, he⟩
    rcases (mem_dedupped putOps kv hkv).2 with ⟨p, hp, hpe⟩
    have h1 := hvalid p hp
    rw [← he, ← hpe]
    exact h1
  -- the common core, parameterized over the last value
  have core : ∀ w : Option JValue, lastPutValue putOps ns key = some w →
      ∃ op₀ : PutOp, op₀.value = w ∧ op₀.ns = ns ∧ op₀.key = key ∧
        (op₀.ns ≠ [] ∧ ∀ s ∈ op₀.ns, '.' ∉ s) ∧
        op₀ ∈ (deduppedPutOps putOps).map (fun kv => kv.2) ∧
        ((deduppedPutOps putOps).map (fun kv => kv.2)).filter
          (fun op => decide (op.ns = ns ∧ op.key = key)) = [op₀] := by
    intro w hw
    rw [lastPutValue_eq_map] at hw
    rcases Option.map_eq_some'.mp hw with ⟨op₀, hfind0, hval⟩
    have hfind : assocFind (deduppedPutOps putOps) (ns, key) = some op₀ := by
      rw [assocFind_dedupped]; exact hfind0
    have hmemdd := assocFind_mem _ _ _ hfind
    have hk := (mem_dedupped putOps _ hmemdd).1
    simp only at hk
    have hns : op₀.ns = ns := by
      have := congrArg Prod.fst hk; simpa using this.symm
    have hkey : op₀.key = key := by
      have := congrArg Prod.snd hk; simpa using this.symm
    have hmemv : op₀ ∈ (deduppedPutOps putOps).map (fun kv => kv.2) :=
      List.mem_map.mpr ⟨_, hmemdd, rfl⟩
    exact ⟨op₀, hval, hns, hkey, hvv op₀ hmemv, hmemv,
      vals_filter_char putOps ns key op₀ hfind⟩
  -- characterize the filtered upsert triples in terms of the last op
  have hup : ∀ op₀ : PutOp,
      ((deduppedPutOps putOps).map (fun kv => kv.2)).filter
        (fun op => decide (op.ns = ns ∧ op.key = key)) = [op₀] →
      op₀.ns = ns → op₀.key = key → (ns ≠ [] ∧ ∀ s ∈ ns, '.' ∉ s) →
      (upsertTriples (_prepare_batch_PUT_queries cfg putOps).1).filter
          (fun t => decide (t.1 = _namespace_to_text ns false ∧ t.2.1 = key)) =
        ([op₀].filter (fun op => op.value.isSome)).map
          (fun op => (_namespace_to_text op.ns false, op.key, op.value.getD .null)) := by
    intro op₀ hfilter hns hkey hnsval
    rw [upsertTriples_prepare, List.filter_map]
    have hcong : (((deduppedPutOps putOps).map fun kv => kv.2).filter
          (fun op => op.value.isSome)).filter
          ((fun t => decide (t.1 = _namespace_to_text ns false ∧ t.2.1 = key)) ∘
            (fun op => (_namespace_to_text op.ns false, op.key, op.value.getD .null))) =
        (((deduppedPutOps putOps).map fun kv => kv.2).filter
          (fun op => op.value.isSome)).filter
          (fun op => decide (op.ns = ns ∧ op.key = key)) := by
      apply List.filter_congr
      intro op hop
      have hopv := hvv op (List.mem_of_mem_filter hop)
      simp only [Function.comp]
      apply decide_eq_decide.mpr
      constructor
      · rintro ⟨h1, h2⟩
        exact ⟨namespace_text_injective op.ns ns hopv.1 hnsval.1 hopv.2 hnsval.2 h1, h2⟩
      · rintro ⟨h1, h2⟩
        exact ⟨by rw [h1], h2⟩
    rw [hcong, filter_comm', hfilter]
  -- characterize the filtered delete pairs in terms of the last op
  have hdel : ∀ op₀ : PutOp,
      ((deduppedPutOps putOps).map (fun kv => kv.2)).filter
        (fun op => decide (op.ns = ns ∧ op.key = key)) = [op₀] →
      op₀.ns = ns → op₀.key = key → (ns ≠ [] ∧ ∀ s ∈ ns, '.' ∉ s) →
      op₀ ∈ (deduppedPutOps putOps).map (fun kv => kv.2) →
      (deletePairs (_prepare_batch_PUT_queries cfg putOps).1).filter
          (fun d => decide (d = (_namespace_to_text ns false, key))) =
        ([op₀].filter (fun op => !op.value.isSome)).map
          (fun op => (_namespace_to_text ns false, op.key)) := by
    intro op₀ hfilter hns hkey hnsval hmemv
    rw [deletePairs_prepare, filter_flatMap_comm]
    have hkeyvalid : ∀ g ∈ groupPairs (fun op : PutOp => op.ns) (fun op => op.key)
        (((deduppedPutOps putOps).map (fun kv => kv.2)).filter
          (fun op => !op.value.isSome)), g.1 ≠ [] ∧ ∀ s ∈ g.1, '.' ∉ s := by
      intro g hg
      have hk1 : g.1 ∈ (groupPairs (fun op : PutOp => op.ns) (fun op => op.key)
          (((deduppedPutOps putOps).map (fun kv => kv.2)).filter
            (fun op => !op.value.isSome))).map Prod.fst :=
        List.mem_map.mpr ⟨g, hg, rfl⟩
      rcases (mem_keys_groupPairs _ _ _ _).mp hk1 with ⟨a, ha, hka⟩
      have := hvv a (List.mem_of_mem_filter ha)
      rw [← hka]
      exact this
    have hsingle := flatMap_groups_single
      (groupPairs (fun op : PutOp => op.ns) (fun op => op.key)
        (((deduppedPutOps putOps).map (fun kv => kv.2)).filter
          (fun op => !op.value.isSome)))
      (fun k ys => (ys.map (fun kk => (_namespace_to_text k false, kk))).filter
        (fun d => decide (d = (_namespace_to_text ns false, key))))
      ns (groupPairs_nodupKeys _ _ _) ?hother
    case hother =>
      intro g hg hne
      apply filter_eq_nil_of_forall
      intro x hx
      rcases List.mem_map.mp hx with ⟨kk, _, hkk⟩
      rw [← hkk]
      simp only [decide_eq_false_iff_not]
      intro hpair
      rw [Prod.mk.injEq] at hpair
      have := hkeyvalid g hg
      exact hne (namespace_text_injective g.1 ns this.1 hnsval.1 this.2 hnsval.2 hpair.1)
    rw [hsingle]
    by_cases hc : ns ∈ (groupPairs (fun op : PutOp => op.ns) (fun op => op.key)
        (((deduppedPutOps putOps).map (fun kv => kv.2)).filter
          (fun op => !op.value.isSome))).map Prod.fst
    · rw [if_pos hc]
      beta_reduce
      have hsplit : (((deduppedPutOps putOps).map (fun kv => kv.2)).filter
            (fun a => decide (a.ns = ns) && decide (a.key = key))) =
          ((deduppedPutOps putOps).map (fun kv => kv.2)).filter
            (fun op => decide (op.ns = ns ∧ op.key = key)) := by
        apply List.filter_congr
        intro a _
        by_cases h1 : a.ns = ns <;> by_cases h2 : a.key = key <;> simp [h1, h2]
      rw [groupItems_groupPairs, pair_filter_compute, keymap_filter, List.map_map,
        filter_shuffle, hsplit, hfilter]
      rfl
    · rw [if_neg hc]
      have hsome : op₀.value.isSome := by
        by_contra hno
        have hmemdel : op₀ ∈ ((deduppedPutOps putOps).map (fun kv => kv.2)).filter
            (fun op => !op.value.isSome) := by
          apply List.mem_filter.mpr
          refine ⟨hmemv, ?_⟩
          simp only [Bool.not_eq_true'] at hno ⊢
          simp [Bool.not_eq_true] at hno
          simp [hno]
        exact hc ((mem_keys_groupPairs _ _ _ _).mpr ⟨op₀, hmemdel, hns⟩)
      simp [List.filter, hsome]
  constructor
  · intro v hw
    rcases core (some v) hw with ⟨op₀, hval, hns, hkey, hvald, hmemv, hfilter⟩
    have hnsval : ns ≠ [] ∧ ∀ s ∈ ns, '.' ∉ s := hns ▸ hvald
    constructor
    · rw [hup op₀ hfilter hns hkey hnsval]
      have : op₀.value.isSome := by rw [hval]; rfl
      simp [List.filter, this, hns, hkey, hval]
    · rw [hdel op₀ hfilter hns hkey hnsval hmemv]
      have : op₀.value.isSome := by rw [hval]; rfl
      simp [List.filter, this]
  · intro hw
    rcases core none hw with ⟨op₀, hval, hns, hkey, hvald, hmemv, hfilter⟩
    have hnsval : ns ≠ [] ∧ ∀ s ∈ ns, '.' ∉ s := hns ▸ hvald
    constructor
    · rw [hdel op₀ hfilter hns hkey hnsval hmemv]
      have : op₀.value.isSome = false := by rw [hval]; rfl
      simp [List.filter, this, hkey]
    · rw [hup op₀ hfilter hns hkey hnsval]
      have : op₀.value.isSome = false := by rw [hval]; rfl
      simp [List.filter, this]

/-- Witness: in a batch with two Puts to `("a", "k")`, the compiled upsert
rows contain exactly one row for that key, carrying the second value, and
the delete set is empty. -/
theorem C5_put_last_write_wins_witness :
    (upsertTriples (_prepare_batch_PUT_queries none putOpsW).1).filter
        (fun t => decide (t.1 = _namespace_to_text [pcs "a"] false ∧ t.2.1 = pcs "k")) =
      [(_namespace_to_text [pcs "a"] false, pcs "k", jobj [(pcs "x", JValue.num 2 0)])] ∧
    (deletePairs (_prepare_batch_PUT_queries none putOpsW).1).filter
        (fun d => decide (d = (_namespace_to_text [pcs "a"] false, pcs "k"))) = [] :=
  (C5_put_last_write_wins none putOpsW [pcs "a"] (pcs "k") (by decide)).1
    (jobj [(pcs "x", JValue.num 2 0)]) rfl

/-! ### Error classification: filter compilation only fails with
`UnsupportedOperator` -/

theorem compileOpEntries_error (k : PyStr) (entries : List (PyStr × JValue)) (e : Err)
    (h : compileOpEntries k entries = .error e) : ∃ o, e = .unsupportedOperator o := by
  induction entries with
  | nil => simp [compileOpEntries] at h
  | cons ent rest ih =>
    simp only [compileOpEntries, bind, Except.bind] at h
    cases hc : _get_filter_condition k ent.1 ent.2 with
    | error e' =>
      rw [hc] at h
      simp only [Except.error.injEq] at h
      subst h
      unfold _get_filter_condition at hc
      split_ifs at hc <;>
        first
          | (simp only [Except.error.injEq] at hc; exact ⟨ent.1, hc.symm⟩)
          | simp at hc
    | ok c =>
      rw [hc] at h
      cases hr : compileOpEntries k rest with
      | error e' =>
        rw [hr] at h
        simp only [Except.error.injEq] at h
        subst h
        exact ih hr
      | ok cs => rw [hr] at h; simp at h

theorem compileFilters_error (fl : List (PyStr × JValue)) (e : Err)
    (h : compileFilters fl = .error e) : ∃ o, e = .unsupportedOperator o := by
  induction fl with
  | nil => simp [compileFilters] at h
  | cons ent rest ih =>
    rcases ent with ⟨k, v⟩
    cases v with
    | obj entries =>
      simp only [compileFilters, bind, Except.bind] at h
      cases hc : compileOpEntries k entries.toList with
      | error e' =>
        rw [hc] at h
        simp only [Except.error.injEq] at h
        subst h
        exact compileOpEntries_error _ _ _ hc
      | ok cs =>
        rw [hc] at h
        cases hr : compileFilters rest with
        | error e' =>
          rw [hr] at h
          simp only [Except.error.injEq] at h
          subst h
          exact ih hr
        | ok csr => rw [hr] at h; simp at h
    | null =>
      simp only [compileFilters, bind, Except.bind] at h
      cases hr : compileFilters rest with
      | error e' =>
        rw [hr] at h
        simp only [Except.error.injEq] at h
        subst h
        exact ih hr
      | ok csr => rw [hr] at h; simp at h
    | bool b =>
      simp only [compileFilters, bind, Except.bind] at h
      cases hr : compileFilters rest with
      | error e' =>
        rw [hr] at h
        simp only [Except.error.injEq] at h
        subst h
        exact ih hr
      | ok csr => rw [hr] at h; simp at h
    | num m ex =>
      simp only [compileFilters, bind, Except.bind] at h
      cases hr : compileFilters rest with
      | error e' =>
        rw [hr] at h
        simp only [Except.error.injEq] at h
        subst h
        exact ih hr
      | ok csr => rw [hr] at h; simp at h
    | str st =>
      simp only [compileFilters, bind, Except.bind] at h
      cases hr : compileFilters rest with
      | error e' =>
        rw [hr] at h
        simp only [Except.error.injEq] at h
        subst h
        exact ih hr
      | ok csr => rw [hr] at h; simp at h
    | arr xs =>
      simp only [compileFilters, bind, Except.bind] at h
      cases hr : compileFilters rest with
      | error e' =>
        rw [hr] at h
        simp only [Except.error.injEq] at h
        subst h
        exact ih hr
      | ok csr => rw [hr] at h; simp at h

theorem compileSearchOne_error (cfg : Option EmbeddingConfig) (op : SearchOp) (e : Err)
    (h : compileSearchOne cfg op = .error e) : ∃ o, e = .unsupportedOperator o := by
  simp only [compileSearchOne, bind, Except.bind] at h
  cases hc : compileFilters op.filter with
  | error e' =>
    rw [hc] at h
    simp only [Except.error.injEq] at h
    subst h
    exact compileFilters_error _ _ hc
  | ok cs => rw [hc] at h; simp at h

theorem prepare_search_error (cfg : Option EmbeddingConfig)
    (sOps : List (Nat × SearchOp)) (j : Nat) (e : Err)
    (h : _prepare_batch_search_queries cfg sOps j = .error e) :
    ∃ o, e = .unsupportedOperator o := by
  induction sOps generalizing j with
  | nil => simp [_prepare_batch_search_queries] at h
  | cons p rest ih =>
    simp only [_prepare_batch_search_queries, bind, Except.bind] at h
    cases hc : compileSearchOne cfg p.2 with
    | error e' =>
      rw [hc] at h
      simp only [Except.error.injEq] at h
      subst h
      exact compileSearchOne_error _ _ _ hc
    | ok q =>
      rw [hc] at h
      cases hr : _prepare_batch_search_queries cfg rest (j + 1) with
      | error e' =>
        rw [hr] at h
        simp only [Except.error.injEq] at h
        subst h
        exact ih (j + 1) hr
      | ok pr => rw [hr] at h; simp at h

theorem runSearchPhase_error (be : Backend) (cfg : Option EmbeddingConfig)
    (st : StoreState) (sOps : List (Nat × SearchOp)) (results : List Result) (e : Err)
    (h : runSearchPhase be cfg st sOps results = .error e) :
    ∃ o, e = .unsupportedOperator o := by
  simp only [runSearchPhase, bind, Except.bind] at h
  cases hc : _prepare_batch_search_queries cfg sOps 0 with
  | error e' =>
    rw [hc] at h
    simp only [Except.error.injEq] at h
    subst h
    exact prepare_search_error _ _ _ _ hc
  | ok pr =>
    rw [hc] at h
    rcases cfg with _ | c
    · simp at h
    · rcases pr with ⟨qs, reqs⟩
      rcases reqs with _ | ⟨r, rs⟩ <;> simp at h

/-- C4 counterexample: a Search carrying the semantic query `"q"` on a
store with no embedding config does not fail — the batch executes it as a
plain prefix search and returns the matching item. -/
theorem C4_no_config_search_counterexample :
    (batch ⟨fun _ _ => 0⟩ none
        ⟨[⟨pcs "a", pcs "k", jobj [(pcs "d", JValue.num 1 0)], 1, 2⟩], [], 5⟩
        [Op.search ⟨[pcs "a"], [], some (pcs "q"), 10, 0⟩]).1 =
      .ok [Result.items [⟨[pcs "a"], pcs "k",
        jobj [(pcs "d", JValue.num 1 0)], 1, 2, none⟩]] := rfl

/-- C4 (amended): with no embedding config set, compilation never creates
pending embedding work (the put compiler returns no embedding request, so
the `EmbeddingConfigRequired` guard is unreachable), a batch never fails
with `EmbeddingConfigRequired`, and a Search carrying a semantic query
behaves exactly as the same Search without a query — a silent plain
search, not a failure. -/
theorem C4_no_config_never_embedding_error :
    (∀ putOps : List (Nat × PutOp), (_prepare_batch_PUT_queries none putOps).2 = none) ∧
    (∀ (be : Backend) (st : StoreState) (ops : List Op),
      isEmbCfgError (batch be none st ops).1 = false) ∧
    (∀ (be : Backend) (st : StoreState) (s : SearchOp),
      searchOpSpec be none st s =
        searchOpSpec be none st ⟨s.nsPfx, s.filter, none, s.limit, s.offset⟩) := by
  refine ⟨fun putOps => rfl, ?_, ?_⟩
  · intro be st ops
    unfold batch
    simp only []
    cases hs : runSearchPhase be none st (_group_ops ops).searches
        (runGetPhase st (_group_ops ops).gets
          (List.replicate ops.length Result.null)).1 with
    | error e =>
      rcases runSearchPhase_error _ _ _ _ _ _ hs with ⟨o, ho⟩
      subst ho
      rfl
    | ok p2 => rfl
  · intro be st s
    simp only [searchOpSpec, compileSearchOne, specQuery, Option.isSome_none,
      Bool.and_false]

/-! ### Phase decompositions: results fold and event trace -/

theorem foldl_pair_split {A B C : Type _} (f : C → A → A) (evf : C → List B) (xs : List C) :
    ∀ (a0 : A) (e0 : List B),
      xs.foldl (fun acc c => (f c acc.1, acc.2 ++ evf c)) (a0, e0) =
        (xs.foldl (fun a c => f c a) a0, e0 ++ xs.flatMap evf) := by
  induction xs with
  | nil => intro a0 e0; simp
  | cons c xs ih =>
    intro a0 e0
    simp only [List.foldl_cons, List.flatMap_cons]
    rw [ih, List.append_assoc]

theorem flatMap_single_map (l : List α) (f : α → β) :
    (l.flatMap fun a => [f a]) = l.map f := by
  induction l <;> simp_all

theorem runGetPhase_eq (st : StoreState) (gOps : List (Nat × GetOp)) (rs : List Result) :
    runGetPhase st gOps rs =
      ((_get_batch_GET_ops_queries gOps).foldl (fun a g => getGroupScatter st g a) rs,
        (_get_batch_GET_ops_queries gOps).map getGroupEvent) := by
  unfold runGetPhase
  rw [foldl_pair_split (fun g a => getGroupScatter st g a) (fun g => [getGroupEvent g])]
  simp [flatMap_single_map]

theorem runSearchExec_eq (be : Backend) (st : StoreState)
    (sOps : List (Nat × SearchOp)) (qs : List SearchQuery) (rs : List Result) :
    runSearchExec be st sOps qs rs =
      ((sOps.zip qs).foldl (fun a p => searchWrite be st p a) rs,
        (sOps.zip qs).map (fun p => Event.exec (searchStmt p.2))) := by
  unfold runSearchExec
  rw [foldl_pair_split (fun p a => searchWrite be st p a)
    (fun p => [Event.exec (searchStmt p.2)])]
  simp [flatMap_single_map]

theorem runListPhase_eq (st : StoreState) (lOps : List (Nat × ListNamespacesOp))
    (rs : List Result) :
    runListPhase st lOps rs =
      (lOps.foldl (fun a p => listWrite st p a) rs, lOps.map listEvent) := by
  unfold runListPhase
  rw [foldl_pair_split (fun p a => listWrite st p a) (fun p => [listEvent p])]
  simp [flatMap_single_map]

/-- C6 counterexample: a batch holding a Get followed by a Search whose
filter uses the unknown operator `$foo` aborts with `UnsupportedOperator`
— but only after the Get statement has already executed: the trace holds
one executed statement, contradicting "before any statement executes". -/
theorem C6_unsupported_operator_counterexample :
    batch ⟨fun _ _ => 0⟩ none ⟨[], [], 0⟩
        [Op.get ⟨[pcs "a"], pcs "k"⟩,
         Op.search ⟨[pcs "a"], [(pcs "f", jobj [(pcs "$foo", JValue.num 1 0)])],
           none, 10, 0⟩] =
      (.error (.unsupportedOperator (pcs "$foo")),
        [Event.exec (Stmt.getQ (pcs "a") [pcs "k"])], ⟨[], [], 0⟩) ∧
    (batch ⟨fun _ _ => 0⟩ none ⟨[], [], 0⟩
        [Op.get ⟨[pcs "a"], pcs "k"⟩,
         Op.search ⟨[pcs "a"], [(pcs "f", jobj [(pcs "$foo", JValue.num 1 0)])],
           none, 10, 0⟩]).2.1.length = 1 :=
  ⟨rfl, rfl⟩

/-- C6 (amended): a filter entry with an operator outside the six
supported ones makes search compilation fail synchronously with
`UnsupportedOperator`; the whole batch aborts with that error before any
search, list-namespaces or put statement executes and with the store
unchanged — but Get statements, executed in the phase before search
compilation, have already run (the trace contains only Get statements).
Each of the six supported operators compiles successfully. -/
theorem C6_unsupported_operator_fail_fast (be : Backend)
    (cfg : Option EmbeddingConfig) (st : StoreState) (ops : List Op) (e : Err)
    (h : _prepare_batch_search_queries cfg (_group_ops ops).searches 0 = .error e) :
    (batch be cfg st ops).1 = .error e ∧
    (∃ o, e = .unsupportedOperator o) ∧
    (batch be cfg st ops).2.2 = st ∧
    (∀ ev ∈ (batch be cfg st ops).2.1, ∃ txt keys, ev = Event.exec (Stmt.getQ txt keys)) ∧
    (∀ (k : PyStr) (v : JValue) (o : PyStr),
      o ∈ [pcs "$eq", pcs "$gt", pcs "$gte", pcs "$lt", pcs "$lte", pcs "$ne"] →
      (_get_filter_condition k o v).isOk = true) := by
  have hsp : runSearchPhase be cfg st (_group_ops ops).searches
      (runGetPhase st (_group_ops ops).gets (List.replicate ops.length Result.null)).1 =
      .error e := by
    simp only [runSearchPhase, bind, Except.bind, h]
  have hbatch : batch be cfg st ops =
      (.error e,
        (runGetPhase st (_group_ops ops).gets (List.replicate ops.length Result.null)).2,
        st) := by
    unfold batch
    simp only []
    rw [hsp]
  refine ⟨by rw [hbatch], prepare_search_error _ _ _ _ h, by rw [hbatch], ?_, ?_⟩
  · rw [hbatch]
    intro ev hev
    rw [runGetPhase_eq] at hev
    simp only [] at hev
    rcases List.mem_map.mp hev with ⟨g, _, hg⟩
    exact ⟨_, _, hg.symm⟩
  · intro k v o ho
    simp only [List.mem_cons, List.not_mem_nil, or_false] at ho
    rcases ho with h1 | h1 | h1 | h1 | h1 | h1 <;> subst h1 <;> rfl

/-- Witness: the fail-fast theorem applied to the concrete Get +
bad-filter Search batch: the batch errors with `UnsupportedOperator $foo`
and leaves the store unchanged. -/
theorem C6_unsupported_operator_fail_fast_witness :
    (batch ⟨fun _ _ => 0⟩ none ⟨[], [], 0⟩
        [Op.get ⟨[pcs "a"], pcs "k"⟩,
         Op.search ⟨[pcs "a"], [(pcs "f", jobj [(pcs "$foo", JValue.num 1 0)])],
           none, 10, 0⟩]).1 =
      .error (.unsupportedOperator (pcs "$foo")) ∧
    (batch ⟨fun _ _ => 0⟩ none ⟨[], [], 0⟩
        [Op.get ⟨[pcs "a"], pcs "k"⟩,
         Op.search ⟨[pcs "a"], [(pcs "f", jobj [(pcs "$foo", JValue.num 1 0)])],
           none, 10, 0⟩]).2.2 = ⟨[], [], 0⟩ := by
  have h := C6_unsupported_operator_fail_fast ⟨fun _ _ => 0⟩ none ⟨[], [], 0⟩
    [Op.get ⟨[pcs "a"], pcs "k"⟩,
     Op.search ⟨[pcs "a"], [(pcs "f", jobj [(pcs "$foo", JValue.num 1 0)])],
       none, 10, 0⟩] (.unsupportedOperator (pcs "$foo")) rfl
  exact ⟨h.1, h.2.2.1⟩

/-! ### Embedding-call trace lemmas (C3) -/

theorem embedCallTexts_append (a b : List Event) :
    embedCallTexts (a ++ b) = embedCallTexts a ++ embedCallTexts b := by
  unfold embedCallTexts
  exact List.filterMap_append a b _

theorem embedCallTexts_getEvents (gs : List (List PyStr × List (Nat × PyStr))) :
    embedCallTexts (gs.map getGroupEvent) = [] := by
  induction gs with
  | nil => rfl
  | cons g gs ih => simpa [embedCallTexts, List.filterMap_cons, getGroupEvent] using ih

theorem embedCallTexts_listEvents (ls : List (Nat × ListNamespacesOp)) :
    embedCallTexts (ls.map listEvent) = [] := by
  induction ls with
  | nil => rfl
  | cons l ls ih => simpa [embedCallTexts, List.filterMap_cons, listEvent] using ih

theorem embedCallTexts_searchExecEvents (ps : List ((Nat × SearchOp) × SearchQuery)) :
    embedCallTexts (ps.map (fun p => Event.exec (searchStmt p.2))) = [] := by
  induction ps with
  | nil => rfl
  | cons p ps ih => simpa [embedCallTexts, List.filterMap_cons] using ih

theorem embedCallTexts_execMap (l : List Stmt) :
    embedCallTexts (l.map Event.exec) = [] := by
  induction l with
  | nil => rfl
  | cons s l ih => simpa [embedCallTexts, List.filterMap_cons] using ih

theorem embedCallTexts_cons_call (ts : List PyStr) (l : List Event) :
    embedCallTexts (Event.embedCall ts :: l) = ts :: embedCallTexts l := by
  simp [embedCallTexts, List.filterMap_cons]

theorem prepare_search_ok (cfg : Option EmbeddingConfig) (sOps : List (Nat × SearchOp)) :
    ∀ (j : Nat) (qs : List SearchQuery) (reqs : List (Nat × PyStr)),
      _prepare_batch_search_queries cfg sOps j = .ok (qs, reqs) →
      reqs = reqsSpec cfg j sOps ∧
      List.Forall₂ (fun (p : Nat × SearchOp) q => compileSearchOne cfg p.2 = .ok q) sOps qs := by
  induction sOps with
  | nil =>
    intro j qs reqs h
    simp only [_prepare_batch_search_queries, Except.ok.injEq, Prod.mk.injEq] at h
    rcases h with ⟨h1, h2⟩
    subst h1; subst h2
    exact ⟨rfl, List.Forall₂.nil⟩
  | cons p rest ih =>
    intro j qs reqs h
    simp only [_prepare_batch_search_queries, bind, Except.bind] at h
    cases hc : compileSearchOne cfg p.2 with
    | error e => rw [hc] at h; simp at h
    | ok q =>
      rw [hc] at h
      cases hr : _prepare_batch_search_queries cfg rest (j + 1) with
      | error e => rw [hr] at h; simp at h
      | ok pr =>
        rw [hr] at h
        simp only [Except.ok.injEq, Prod.mk.injEq] at h
        rcases h with ⟨h1, h2⟩
        rcases ih (j + 1) pr.1 pr.2 (by rw [hr]) with ⟨ih1, ih2⟩
        constructor
        · rw [← h2, ih1]
          rfl
        · rw [← h1]
          exact List.Forall₂.cons hc ih2

/-- C3 counterexample: a successful batch holding one Put (one pending
fragment) and one Search with a semantic query makes two
embedding-capability calls — one per phase — not one per batch. -/
theorem C3_two_embed_calls_counterexample :
    (embedCallTexts (batch ⟨fun _ _ => 0⟩ (some ⟨1, fun _ => [1], none⟩)
        ⟨[], [], 0⟩
        [Op.put ⟨[pcs "a"], pcs "k", some (jobj [(pcs "d", JValue.str (pcs "x"))])⟩,
         Op.search ⟨[pcs "a"], [], some (pcs "q"), 10, 0⟩]).2.1).length = 2 ∧
    (batch ⟨fun _ _ => 0⟩ (some ⟨1, fun _ => [1], none⟩)
        ⟨[], [], 0⟩
        [Op.put ⟨[pcs "a"], pcs "k", some (jobj [(pcs "d", JValue.str (pcs "x"))])⟩,
         Op.search ⟨[pcs "a"], [], some (pcs "q"), 10, 0⟩]).1.isOk = true :=
  ⟨rfl, rfl⟩

/-- C3 (amended): a successful batch makes at most one
embedding-capability call per phase, each carrying the full list of that
phase's pending texts, and never one call per item: the search phase
makes one call with all pending query texts exactly when requests are
pending and a config is set, and the put phase makes one call with all
pending fragment texts exactly when the put compiler collected pending
embedding work.  The calls happen in that order, so a batch makes at most
two embedding calls. -/
theorem C3_embed_once_per_phase (be : Backend) (cfg : Option EmbeddingConfig)
    (st : StoreState) (ops : List Op) (res : List Result) (ev : List Event)
    (st' : StoreState) (h : batch be cfg st ops = (.ok res, ev, st')) :
    embedCallTexts ev =
      searchCallSpec cfg (_group_ops ops).searches ++
      putCallSpec cfg (_group_ops ops).puts := by
  unfold batch at h
  simp only [] at h
  cases hs : runSearchPhase be cfg st (_group_ops ops).searches
      (runGetPhase st (_group_ops ops).gets (List.replicate ops.length Result.null)).1 with
  | error e => rw [hs] at h; simp at h
  | ok p2 =>
    rw [hs] at h
    simp only [] at h
    cases hp : runPutPhase cfg st (_group_ops ops).puts with
    | error e => rw [hp] at h; simp at h
    | ok p4 =>
      rw [hp] at h
      simp only [] at h
      have hev : ev =
          (runGetPhase st (_group_ops ops).gets
            (List.replicate ops.length Result.null)).2 ++ p2.2 ++
          (runListPhase st (_group_ops ops).lists p2.1).2 ++ p4.1 := by
        have := congrArg (fun t => t.2.1) h
        simpa using this.symm
      rw [hev, embedCallTexts_append, embedCallTexts_append, embedCallTexts_append]
      rw [runGetPhase_eq, runListPhase_eq]
      simp only [embedCallTexts_getEvents, embedCallTexts_listEvents]
      -- search phase calls
      have hsearch : embedCallTexts p2.2 =
          searchCallSpec cfg (_group_ops ops).searches := by
        unfold searchCallSpec
        unfold runSearchPhase at hs
        simp only [bind, Except.bind] at hs
        cases hprep : _prepare_batch_search_queries cfg (_group_ops ops).searches 0 with
        | error e => rw [hprep] at hs; simp at hs
        | ok pr =>
          rw [hprep] at hs
          have hreq := (prepare_search_ok cfg (_group_ops ops).searches 0 pr.1 pr.2
            (by rw [hprep])).1
          rcases cfg with _ | c
          · simp only [] at hs
            have hp2 : p2 = runSearchExec be st (_group_ops ops).searches pr.1
                (runGetPhase st (_group_ops ops).gets
                  (List.replicate ops.length Result.null)).1 := by
              simp only [Except.ok.injEq] at hs
              exact hs.symm
            rw [hp2, runSearchExec_eq]
            simp only [embedCallTexts_searchExecEvents]
          · simp only [] at hs
            cases hs2 : pr.2 with
            | nil =>
              rw [hs2] at hs
              simp only [Except.ok.injEq] at hs
              rw [← hs, runSearchExec_eq]
              simp only [embedCallTexts_searchExecEvents]
              rw [← hreq, hs2]
            | cons r rs =>
              rw [hs2] at hs
              simp only [Except.ok.injEq] at hs
              rw [← hs]
              simp only []
              rw [embedCallTexts_cons_call, runSearchExec_eq]
              simp only [embedCallTexts_searchExecEvents]
              rw [← hreq, hs2]
      -- put phase calls
      have hput : embedCallTexts p4.1 =
          putCallSpec cfg (_group_ops ops).puts := by
        unfold putCallSpec
        unfold runPutPhase at hp
        simp only [] at hp
        cases hpr : (_prepare_batch_PUT_queries cfg (_group_ops ops).puts).2 with
        | none =>
          rw [hpr] at hp
          simp only [Except.ok.injEq] at hp
          rw [← hp]
          simp only [embedCallTexts_execMap]
        | some req =>
          rw [hpr] at hp
          rcases cfg with _ | c
          · simp at hp
          · simp only [Except.ok.injEq] at hp
            rw [← hp]
            simp only []
            rw [embedCallTexts_cons_call, embedCallTexts_execMap]
      rw [hsearch, hput]
      simp

/-- Witness: the once-per-phase theorem applied to the concrete Put +
semantic Search batch whose run appears in the counterexample: the trace
holds exactly the search-phase call (the query text) followed by the
put-phase call (the extracted fragment). -/
theorem C3_embed_once_per_phase_witness :
    embedCallTexts (batch ⟨fun _ _ => 0⟩ (some ⟨1, fun _ => [1], none⟩)
        ⟨[], [], 0⟩
        [Op.put ⟨[pcs "a"], pcs "k", some (jobj [(pcs "d", JValue.str (pcs "x"))])⟩,
         Op.search ⟨[pcs "a"], [], some (pcs "q"), 10, 0⟩]).2.1 =
      searchCallSpec (some ⟨1, fun _ => [1], none⟩)
        (_group_ops
          [Op.put ⟨[pcs "a"], pcs "k", some (jobj [(pcs "d", JValue.str (pcs "x"))])⟩,
           Op.search ⟨[pcs "a"], [], some (pcs "q"), 10, 0⟩]).searches ++
      putCallSpec (some ⟨1, fun _ => [1], none⟩)
        (_group_ops
          [Op.put ⟨[pcs "a"], pcs "k", some (jobj [(pcs "d", JValue.str (pcs "x"))])⟩,
           Op.search ⟨[pcs "a"], [], some (pcs "q"), 10, 0⟩]).puts :=
  C3_embed_once_per_phase ⟨fun _ _ => 0⟩ (some ⟨1, fun _ => [1], none⟩)
    ⟨[], [], 0⟩
    [Op.put ⟨[pcs "a"], pcs "k", some (jobj [(pcs "d", JValue.str (pcs "x"))])⟩,
     Op.search ⟨[pcs "a"], [], some (pcs "q"), 10, 0⟩]
    ((batch ⟨fun _ _ => 0⟩ (some ⟨1, fun _ => [1], none⟩) ⟨[], [], 0⟩
      [Op.put ⟨[pcs "a"], pcs "k", some (jobj [(pcs "d", JValue.str (pcs "x"))])⟩,
       Op.search ⟨[pcs "a"], [], some (pcs "q"), 10, 0⟩]).1.toOption.getD [])
    (batch ⟨fun _ _ => 0⟩ (some ⟨1, fun _ => [1], none⟩) ⟨[], [], 0⟩
      [Op.put ⟨[pcs "a"], pcs "k", some (jobj [(pcs "d", JValue.str (pcs "x"))])⟩,
       Op.search ⟨[pcs "a"], [], some (pcs "q"), 10, 0⟩]).2.1
    (batch ⟨fun _ _ => 0⟩ (some ⟨1, fun _ => [1], none⟩) ⟨[], [], 0⟩
      [Op.put ⟨[pcs "a"], pcs "k", some (jobj [(pcs "d", JValue.str (pcs "x"))])⟩,
       Op.search ⟨[pcs "a"], [], some (pcs "q"), 10, 0⟩]).2.2
    rfl

/-! ### Result-vector scatter lemmas (C1) -/

theorem scatter_nil (rs : List Result) : scatter rs [] = rs := rfl

theorem scatter_cons (rs : List Result) (w : Nat × Result) (ws : List (Nat × Result)) :
    scatter rs (w :: ws) = scatter (rs.set w.1 w.2) ws := rfl

theorem scatter_append (rs : List Result) (a b : List (Nat × Result)) :
    scatter rs (a ++ b) = scatter (scatter rs a) b := by
  simp [scatter, List.foldl_append]

theorem scatter_length (ws : List (Nat × Result)) :
    ∀ rs : List Result, (scatter rs ws).length = rs.length := by
  induction ws with
  | nil => intro rs; rfl
  | cons w ws ih =>
    intro rs
    rw [scatter_cons, ih, List.length_set]

theorem scatter_getElem?_not_mem (ws : List (Nat × Result)) :
    ∀ (rs : List Result) (i : Nat), i ∉ ws.map Prod.fst →
      (scatter rs ws)[i]? = rs[i]? := by
  induction ws with
  | nil => intro rs i _; rfl
  | cons w ws ih =>
    intro rs i hi
    simp only [List.map_cons, List.mem_cons] at hi
    push_neg at hi
    rw [scatter_cons, ih _ _ hi.2, List.getElem?_set_ne (fun hh => hi.1 hh.symm)]

theorem scatter_getElem?_mem (ws : List (Nat × Result)) :
    ∀ (rs : List Result) (i : Nat) (v : Result), (ws.map Prod.fst).Nodup →
      (i, v) ∈ ws → i < rs.length → (scatter rs ws)[i]? = some v := by
  induction ws with
  | nil => intro rs i v _ h _; simp at h
  | cons w ws ih =>
    intro rs i v hnd hmem hlt
    simp only [List.map_cons, List.nodup_cons] at hnd
    rcases List.mem_cons.mp hmem with h | h
    · rw [scatter_cons, scatter_getElem?_not_mem ws _ _ (by rw [← h] at hnd; exact hnd.1)]
      rw [← h]
      rw [List.getElem?_set_self]
      simp [hlt]
    · rw [scatter_cons]
      exact ih _ _ _ hnd.2 h (by rwa [List.length_set])

/-! ### Enumeration and grouping index lemmas (C1) -/

theorem mem_enumFrom' (l : List α) :
    ∀ (n j : Nat) (a : α), (j, a) ∈ enumFrom n l → n ≤ j ∧ l[j - n]? = some a := by
  induction l with
  | nil => intro n j a h; simp [enumFrom] at h
  | cons x l ih =>
    intro n j a h
    simp only [enumFrom, List.mem_cons] at h
    rcases h with h | h
    · simp only [Prod.mk.injEq] at h
      rcases h with ⟨h1, h2⟩
      subst h1; subst h2
      simp
    · have := ih (n + 1) j a h
      refine ⟨by omega, ?_⟩
      have hj : j - n = (j - (n + 1)) + 1 := by omega
      rw [hj]
      simpa using this.2

theorem enumFrom_mem' (l : List α) :
    ∀ (n i : Nat) (a : α), l[i]? = some a → (n + i, a) ∈ enumFrom n l := by
  induction l with
  | nil => intro n i a h; simp at h
  | cons x l ih =>
    intro n i a h
    cases i with
    | zero =>
      simp only [List.getElem?_cons_zero, Option.some.injEq] at h
      subst h
      simp [enumFrom]
    | succ i =>
      simp only [List.getElem?_cons_succ] at h
      have hmem := ih (n + 1) i a h
      simp only [enumFrom, List.mem_cons]
      right
      have harith : n + (i + 1) = (n + 1) + i := by omega
      rw [harith]
      exact hmem

theorem mem_enumFrom_zero (l : List α) (j : Nat) (a : α) :
    (j, a) ∈ enumFrom 0 l ↔ l[j]? = some a := by
  constructor
  · intro h
    have := mem_enumFrom' l 0 j a h
    simpa using this.2
  · intro h
    have := enumFrom_mem' l 0 j a h
    simpa using this

theorem mem_filterMap_enumFrom_ge (f : Nat × α → Option (Nat × β))
    (hf : ∀ j a p, f (j, a) = some p → p.1 = j) (l : List α) :
    ∀ (n : Nat) (q : Nat × β), q ∈ (enumFrom n l).filterMap f → n ≤ q.1 := by
  induction l with
  | nil => intro n q h; simp [enumFrom] at h
  | cons x l ih =>
    intro n q h
    simp only [enumFrom, List.filterMap_cons] at h
    cases hx : f (n, x) with
    | none =>
      rw [hx] at h
      exact Nat.le_of_succ_le (ih (n + 1) q h)
    | some p =>
      rw [hx] at h
      rcases List.mem_cons.mp h with h | h
      · subst h
        have := hf n x q hx
        omega
      · exact Nat.le_of_succ_le (ih (n + 1) q h)

theorem filterMap_enumFrom_fst_nodup (f : Nat × α → Option (Nat × β))
    (hf : ∀ j a p, f (j, a) = some p → p.1 = j) (l : List α) :
    ∀ n : Nat, (((enumFrom n l).filterMap f).map Prod.fst).Nodup := by
  induction l with
  | nil => intro n; simp [enumFrom]
  | cons x l ih =>
    intro n
    simp only [enumFrom, List.filterMap_cons]
    cases hx : f (n, x) with
    | none => exact ih (n + 1)
    | some p =>
      simp only [List.map_cons, List.nodup_cons]
      refine ⟨?_, ih (n + 1)⟩
      intro hmem
      rcases List.mem_map.mp hmem with ⟨q, hq, hq1⟩
      have h1 := mem_filterMap_enumFrom_ge f hf l (n + 1) q hq
      have h2 := hf n x p hx
      omega

theorem mem_group_gets (ops : List Op) (i : Nat) (g : GetOp) :
    (i, g) ∈ (_group_ops ops).gets ↔ ops[i]? = some (.get g) := by
  simp only [_group_ops, List.mem_filterMap]
  constructor
  · rintro ⟨⟨j, op⟩, hp, hfeq⟩
    cases op with
    | get gg =>
      simp only [Option.some.injEq, Prod.mk.injEq] at hfeq
      rcases hfeq with ⟨h1, h2⟩
      subst h1; subst h2
      exact (mem_enumFrom_zero ops j (Op.get gg)).mp hp
    | put q => simp at hfeq
    | search s => simp at hfeq
    | listNs lo => simp at hfeq
  · intro h
    exact ⟨(i, Op.get g), (mem_enumFrom_zero ops i (Op.get g)).mpr h, rfl⟩

theorem mem_group_searches (ops : List Op) (i : Nat) (s : SearchOp) :
    (i, s) ∈ (_group_ops ops).searches ↔ ops[i]? = some (.search s) := by
  simp only [_group_ops, List.mem_filterMap]
  constructor
  · rintro ⟨⟨j, op⟩, hp, hfeq⟩
    cases op with
    | search ss =>
      simp only [Option.some.injEq, Prod.mk.injEq] at hfeq
      rcases hfeq with ⟨h1, h2⟩
      subst h1; subst h2
      exact (mem_enumFrom_zero ops j (Op.search ss)).mp hp
    | put q => simp at hfeq
    | get gg => simp at hfeq
    | listNs lo => simp at hfeq
  · intro h
    exact ⟨(i, Op.search s), (mem_enumFrom_zero ops i (Op.search s)).mpr h, rfl⟩

theorem mem_group_lists (ops : List Op) (i : Nat) (lo : ListNamespacesOp) :
    (i, lo) ∈ (_group_ops ops).lists ↔ ops[i]? = some (.listNs lo) := by
  simp only [_group_ops, List.mem_filterMap]
  constructor
  · rintro ⟨⟨j, op⟩, hp, hfeq⟩
    cases op with
    | listNs ll =>
      simp only [Option.some.injEq, Prod.mk.injEq] at hfeq
      rcases hfeq with ⟨h1, h2⟩
      subst h1; subst h2
      exact (mem_enumFrom_zero ops j (Op.listNs ll)).mp hp
    | put q => simp at hfeq
    | get gg => simp at hfeq
    | search s => simp at hfeq
  · intro h
    exact ⟨(i, Op.listNs lo), (mem_enumFrom_zero ops i (Op.listNs lo)).mpr h, rfl⟩

theorem gets_fst_nodup (ops : List Op) :
    (((_group_ops ops).gets).map Prod.fst).Nodup := by
  unfold _group_ops
  exact filterMap_enumFrom_fst_nodup _
    (fun j a p h => by cases a <;> simp_all <;> (subst h; rfl)) ops 0

theorem searches_fst_nodup (ops : List Op) :
    (((_group_ops ops).searches).map Prod.fst).Nodup := by
  unfold _group_ops
  exact filterMap_enumFrom_fst_nodup _
    (fun j a p h => by cases a <;> simp_all <;> (subst h; rfl)) ops 0

theorem lists_fst_nodup (ops : List Op) :
    (((_group_ops ops).lists).map Prod.fst).Nodup := by
  unfold _group_ops
  exact filterMap_enumFrom_fst_nodup _
    (fun j a p h => by cases a <;> simp_all <;> (subst h; rfl)) ops 0

/-! ### Get-phase write-list lemmas (C1) -/

theorem getGroupScatter_eq_scatter (st : StoreState) (g : List PyStr × List (Nat × PyStr))
    (rs : List Result) :
    getGroupScatter st g rs =
      scatter rs (g.2.map (fun p => (p.1, getGroupResult st g p.2))) := by
  unfold getGroupScatter scatter
  rw [List.foldl_map]

theorem getPhase_scatter_aux (st : StoreState) :
    ∀ (gs : List (List PyStr × List (Nat × PyStr))) (rs : List Result),
      gs.foldl (fun a g => getGroupScatter st g a) rs =
        scatter rs (gs.flatMap (fun g => g.2.map (fun p => (p.1, getGroupResult st g p.2)))) := by
  intro gs
  induction gs with
  | nil => intro rs; rfl
  | cons g gs ih =>
    intro rs
    simp only [List.foldl_cons, List.flatMap_cons]
    rw [scatter_append, ← getGroupScatter_eq_scatter, ih]

theorem getPhase_scatter (st : StoreState) (gOps : List (Nat × GetOp)) (rs : List Result) :
    (_get_batch_GET_ops_queries gOps).foldl (fun a g => getGroupScatter st g a) rs =
      scatter rs (getWrites st gOps) :=
  getPhase_scatter_aux st (_get_batch_GET_ops_queries gOps) rs

theorem flatMap_addToGroup_perm [DecidableEq K] (gs : List (K × List β)) (k : K) (b : β) :
    List.Perm ((addToGroup gs k b).flatMap (fun g => g.2))
      (gs.flatMap (fun g => g.2) ++ [b]) := by
  induction gs with
  | nil => simp [addToGroup]
  | cons g gs ih =>
    simp only [addToGroup]
    by_cases h : g.1 = k
    · rw [if_pos h]
      simp only [List.flatMap_cons]
      rw [List.append_assoc, List.append_assoc]
      exact List.Perm.append_left _ List.perm_append_comm
    · rw [if_neg h]
      simp only [List.flatMap_cons]
      rw [List.append_assoc]
      exact List.Perm.append_left _ ih

theorem flatMap_groupPairs_perm [DecidableEq K] (keyf : α → K) (itemf : α → β)
    (xs : List α) :
    List.Perm ((groupPairs keyf itemf xs).flatMap (fun g => g.2)) (xs.map itemf) := by
  suffices h : ∀ gs0 : List (K × List β),
      List.Perm
        ((xs.foldl (fun gs a => addToGroup gs (keyf a) (itemf a)) gs0).flatMap (fun g => g.2))
        (gs0.flatMap (fun g => g.2) ++ xs.map itemf) by
    simpa [groupPairs] using h []
  induction xs with
  | nil => intro gs0; simp
  | cons a xs ih =>
    intro gs0
    simp only [List.foldl_cons, List.map_cons]
    refine List.Perm.trans (ih (addToGroup gs0 (keyf a) (itemf a))) ?_
    refine List.Perm.trans
      (List.Perm.append_right _ (flatMap_addToGroup_perm gs0 (keyf a) (itemf a))) ?_
    rw [List.append_assoc]
    exact List.Perm.refl _

theorem getWrites_fst (st : StoreState) (gOps : List (Nat × GetOp)) :
    (getWrites st gOps).map Prod.fst =
      ((_get_batch_GET_ops_queries gOps).flatMap (fun g => g.2)).map Prod.fst := by
  unfold getWrites
  rw [List.map_flatMap, List.map_flatMap]
  congr 1
  funext g
  rw [List.map_map]
  rfl

theorem getWrites_fst_perm (st : StoreState) (gOps : List (Nat × GetOp)) :
    List.Perm ((getWrites st gOps).map Prod.fst) (gOps.map Prod.fst) := by
  rw [getWrites_fst]
  have h := (flatMap_groupPairs_perm (fun (p : Nat × GetOp) => p.2.ns)
    (fun p => (p.1, p.2.key)) gOps).map Prod.fst
  simpa [List.map_map, Function.comp] using h

/-! ### Get result agrees with the standalone Get semantics (C1) -/

theorem lastWithKey_filter_congr (l : List DBRow) (p q : DBRow → Bool) (k : PyStr)
    (h : ∀ r, r.key = k → p r = q r) :
    lastWithKey (l.filter p) k = lastWithKey (l.filter q) k := by
  unfold lastWithKey
  suffices hs : ∀ acc : Option DBRow,
      (l.filter p).foldl (fun acc r => if r.key = k then some r else acc) acc =
      (l.filter q).foldl (fun acc r => if r.key = k then some r else acc) acc from hs none
  induction l with
  | nil => intro acc; rfl
  | cons r l ih =>
    intro acc
    rw [List.filter_cons, List.filter_cons]
    by_cases hk : r.key = k
    · have hpq := h r hk
      rw [← hpq]
      cases hp : p r with
      | false => simp only [Bool.false_eq_true, if_neg]; exact ih acc
      | true =>
        simp only [if_pos, List.foldl_cons]
        exact ih _
    · cases hp : p r <;> cases hq : q r <;>
        simp only [Bool.false_eq_true, if_neg, if_pos, List.foldl_cons, hk, if_false] <;>
        exact ih acc

theorem getGroupResult_eq_spec (st : StoreState) (entries : List (Nat × PyStr)) (g : GetOp)
    (hk : g.key ∈ entries.map (fun p => p.2)) :
    getGroupResult st (g.ns, entries) g.key = getOpSpec st g := by
  unfold getGroupResult getOpSpec getGroupRows
  have hcong := lastWithKey_filter_congr st.store
    (fun r => decide (r.pfx = _namespace_to_text g.ns false ∧
      r.key ∈ entries.map (fun p => p.2)))
    (fun r => decide (r.pfx = _namespace_to_text g.ns false ∧ r.key = g.key)) g.key
    (fun r hr => by simp [hr, hk])
  rw [show ((g.ns, entries).2.map (fun p => p.2)) = entries.map (fun p => p.2) from rfl]
  rw [show _namespace_to_text (g.ns, entries).1 false = _namespace_to_text g.ns false from rfl]
  rw [hcong]

theorem getWrites_mem (st : StoreState) (gOps : List (Nat × GetOp)) (i : Nat) (g : GetOp)
    (h : (i, g) ∈ gOps) : (i, getOpSpec st g) ∈ getWrites st gOps := by
  have hkey : g.ns ∈ (_get_batch_GET_ops_queries gOps).map Prod.fst :=
    (mem_keys_groupPairs (fun (p : Nat × GetOp) => p.2.ns) (fun p => (p.1, p.2.key))
      gOps g.ns).mpr ⟨(i, g), h, rfl⟩
  rcases List.mem_map.mp hkey with ⟨grp, hgrp, hfst⟩
  have hnd := groupPairs_nodupKeys (fun (p : Nat × GetOp) => p.2.ns)
    (fun p => (p.1, p.2.key)) gOps
  have hsnd : grp.2 = groupItems (_get_batch_GET_ops_queries gOps) grp.1 :=
    group_eq_groupItems _ hnd grp.1 grp.2 (by rwa [← Prod.mk.eta (p := grp)] at hgrp)
  have hitems : grp.2 = (gOps.filter (fun p => decide (p.2.ns = g.ns))).map
      (fun p => (p.1, p.2.key)) := by
    rw [hsnd, hfst]
    exact groupItems_groupPairs _ _ _ _
  have hmem2 : (i, g.key) ∈ grp.2 := by
    rw [hitems]
    exact List.mem_map.mpr ⟨(i, g), List.mem_filter.mpr ⟨h, by simp⟩, rfl⟩
  have hgrp_eq : grp = (g.ns, grp.2) := by
    rw [← hfst]
  have hvalue : getGroupResult st grp g.key = getOpSpec st g := by
    rw [hgrp_eq]
    refine getGroupResult_eq_spec st grp.2 g ?_
    exact List.mem_map.mpr ⟨(i, g.key), hmem2, rfl⟩
  unfold getWrites
  refine List.mem_flatMap.mpr ⟨grp, hgrp, ?_⟩
  rw [← hvalue]
  exact List.mem_map.mpr ⟨(i, g.key), hmem2, rfl⟩

/-! ### Search-phase write-list lemmas (C1) -/

theorem forall₂_getElem? {R : α → β → Prop} {l₁ : List α} {l₂ : List β}
    (h : List.Forall₂ R l₁ l₂) :
    ∀ (i : Nat) (a : α) (b : β), l₁[i]? = some a → l₂[i]? = some b → R a b := by
  induction h with
  | nil => intro i a b h1 _; simp at h1
  | cons hr hrest ih =>
    intro i a b h1 h2
    cases i with
    | zero =>
      simp only [List.getElem?_cons_zero, Option.some.injEq] at h1 h2
      subst h1; subst h2
      exact hr
    | succ i =>
      simp only [List.getElem?_cons_succ] at h1 h2
      exact ih i a b h1 h2

theorem zip_getElem? :
    ∀ (xs : List α) (ys : List β) (k : Nat) (a : α) (b : β),
      xs[k]? = some a → ys[k]? = some b → (xs.zip ys)[k]? = some (a, b) := by
  intro xs
  induction xs with
  | nil => intro ys k a b h _; simp at h
  | cons x l ih =>
    intro ys k a b h1 h2
    cases ys with
    | nil => simp at h2
    | cons y ys =>
      cases k with
      | zero =>
        simp only [List.getElem?_cons_zero, Option.some.injEq] at h1 h2
        subst h1; subst h2
        simp [List.zip_cons_cons]
      | succ k =>
        simp only [List.getElem?_cons_succ] at h1 h2
        simpa [List.zip_cons_cons] using ih ys k a b h1 h2

theorem zip_map_snd_zip (l₁ : List α) :
    ∀ (l₂ : List β) (f : α × β → γ),
      l₁.zip ((l₁.zip l₂).map f) = (l₁.zip l₂).map (fun p => (p.1, f p)) := by
  induction l₁ with
  | nil => intro l₂ f; simp
  | cons a l₁ ih =>
    intro l₂ f
    cases l₂ with
    | nil => simp
    | cons b l₂ => simp [List.zip_cons_cons, ih]

theorem modifyAt_append_cons (f : α → α) (x : α) (post : List α) :
    ∀ pre : List α, modifyAt f pre.length (pre ++ x :: post) = pre ++ f x :: post := by
  intro pre
  induction pre with
  | nil => rfl
  | cons p pre ih => simp [modifyAt, ih]

theorem patchQueries_append (embed : PyStr → List Rat) (a b : List (Nat × PyStr))
    (qs : List SearchQuery) :
    patchQueries embed (a ++ b) qs = patchQueries embed b (patchQueries embed a qs) := by
  simp [patchQueries, List.foldl_append]

theorem specQuery_none (s : SearchOp) (q : SearchQuery) : specQuery none s q = q := rfl

theorem reqsSpec_nil_specQuery (cfg : Option EmbeddingConfig) :
    ∀ (sOps : List (Nat × SearchOp)) (n : Nat), reqsSpec cfg n sOps = [] →
      ∀ p ∈ sOps, ∀ q : SearchQuery, specQuery cfg p.2 q = q := by
  intro sOps
  induction sOps with
  | nil => intro n _ p hp; simp at hp
  | cons p0 sOps ih =>
    intro n h p hp q
    obtain ⟨j0, op⟩ := p0
    simp only [reqsSpec, List.append_eq_nil] at h
    rcases List.mem_cons.mp hp with heq | hp'
    · subst heq
      have h1 := h.1
      unfold searchReqOf at h1
      unfold specQuery
      rcases cfg with _ | c
      · rfl
      · cases hq : op.query with
        | none => simp [hq]
        | some qt =>
          rw [hq] at h1
          simp only [Option.isSome_some, Bool.and_true] at h1
          cases hE : qt.isEmpty with
          | false => rw [hE] at h1; simp at h1
          | true => simp [hq, hE]
    · exact ih (n + 1) h.2 p hp' q

theorem patch_spec (c : EmbeddingConfig) {sOps : List (Nat × SearchOp)}
    {qs : List SearchQuery}
    (h : List.Forall₂ (fun (p : Nat × SearchOp) q =>
      compileSearchOne (some c) p.2 = .ok q) sOps qs) :
    ∀ pre : List SearchQuery,
      patchQueries c.embed (reqsSpec (some c) pre.length sOps) (pre ++ qs) =
        pre ++ (sOps.zip qs).map (fun p => specQuery (some c) p.1.2 p.2) := by
  induction h with
  | nil => intro pre; simp [reqsSpec, patchQueries]
  | @cons p q sOps' qs' hc hrest ih =>
    intro pre
    obtain ⟨j0, op⟩ := p
    simp only [reqsSpec, List.zip_cons_cons]
    rw [patchQueries_append]
    have hstep : ∀ q' : SearchQuery,
        specQuery (some c) op q = q' →
        patchQueries c.embed (searchReqOf (some c) pre.length op) (pre ++ q :: qs') =
          pre ++ q' :: qs' →
        patchQueries c.embed (reqsSpec (some c) (pre.length + 1) sOps')
            (patchQueries c.embed (searchReqOf (some c) pre.length op) (pre ++ q :: qs')) =
          pre ++ (((j0, op), q) :: sOps'.zip qs').map
            (fun p => specQuery (some c) p.1.2 p.2) := by
      intro q' hspec hpatch
      rw [hpatch]
      have hpre : pre ++ q' :: qs' = (pre ++ [q']) ++ qs' := by
        rw [List.append_assoc]; rfl
      rw [hpre]
      have hlen : pre.length + 1 = (pre ++ [q']).length := by simp
      rw [hlen, ih (pre ++ [q'])]
      simp only [List.map_cons, hspec]
      rw [List.append_assoc]
      rfl
    cases hq : op.query with
    | none =>
      refine hstep q ?_ ?_
      · unfold specQuery; rw [hq]
      · unfold searchReqOf; rw [hq]; rfl
    | some qt =>
      cases hE : qt.isEmpty with
      | true =>
        refine hstep q ?_ ?_
        · unfold specQuery; rw [hq]; simp [hE]
        · unfold searchReqOf; rw [hq]; simp [hE, patchQueries]
      | false =>
        refine hstep { q with qvec := some (c.embed qt) } ?_ ?_
        · unfold specQuery; rw [hq]; simp [hE]
        · unfold searchReqOf; rw [hq]
          simp only [Option.isSome_some, Bool.and_true, hE, Bool.not_false, if_true]
          show modifyAt (fun qq => { qq with qvec := some (c.embed qt) })
            pre.length (pre ++ q :: qs') = _
          rw [modifyAt_append_cons]

theorem searchExec_foldl_scatter (be : Backend) (st : StoreState)
    (ps : List ((Nat × SearchOp) × SearchQuery)) (rs : List Result) :
    ps.foldl (fun a p => searchWrite be st p a) rs =
      scatter rs (ps.map (fun p =>
        (p.1.1, Result.items ((runSearchQuery be st p.2).map rowToSearchItem)))) := by
  unfold scatter
  rw [List.foldl_map]
  rfl

theorem listPhase_foldl_scatter (st : StoreState) (lOps : List (Nat × ListNamespacesOp))
    (rs : List Result) :
    lOps.foldl (fun a p => listWrite st p a) rs = scatter rs (listWrites st lOps) := by
  unfold scatter listWrites
  rw [List.foldl_map]
  rfl

theorem runSearchPhase_writes (be : Backend) (cfg : Option EmbeddingConfig) (st : StoreState)
    (sOps : List (Nat × SearchOp)) (rs : List Result) (p2 : List Result × List Event)
    (hs : runSearchPhase be cfg st sOps rs = .ok p2) :
    ∃ qs0 : List SearchQuery,
      qs0.length = sOps.length ∧
      List.Forall₂ (fun (p : Nat × SearchOp) q => compileSearchOne cfg p.2 = .ok q) sOps qs0 ∧
      p2.1 = scatter rs (searchWrites be cfg st sOps qs0) := by
  unfold runSearchPhase at hs
  simp only [bind, Except.bind] at hs
  cases hprep : _prepare_batch_search_queries cfg sOps 0 with
  | error e => rw [hprep] at hs; simp at hs
  | ok pr =>
    rw [hprep] at hs
    have hpr := prepare_search_ok cfg sOps 0 pr.1 pr.2 (by rw [hprep])
    have hlen : pr.1.length = sOps.length := (List.Forall₂.length_eq hpr.2).symm
    refine ⟨pr.1, hlen, hpr.2, ?_⟩
    rcases cfg with _ | c
    · simp only [] at hs
      simp only [Except.ok.injEq] at hs
      rw [← hs]
      unfold runSearchExec
      rw [foldl_pair_split (fun p a => searchWrite be st p a)
        (fun p => [Event.exec (searchStmt p.2)])]
      show ((sOps.zip pr.1).foldl (fun a p => searchWrite be st p a) rs) = _
      rw [searchExec_foldl_scatter]
      unfold searchWrites
      simp only [specQuery_none]
    · simp only [] at hs
      cases hs2 : pr.2 with
      | nil =>
        rw [hs2] at hs
        simp only [Except.ok.injEq] at hs
        rw [← hs]
        unfold runSearchExec
        rw [foldl_pair_split (fun p a => searchWrite be st p a)
          (fun p => [Event.exec (searchStmt p.2)])]
        show ((sOps.zip pr.1).foldl (fun a p => searchWrite be st p a) rs) = _
        rw [searchExec_foldl_scatter]
        unfold searchWrites
        have hnil : reqsSpec (some c) 0 sOps = [] := by rw [← hpr.1, hs2]
        refine congrArg (scatter rs) (List.map_congr_left ?_)
        intro p hp
        have hmem : p.1 ∈ sOps := by
          obtain ⟨p1, pq⟩ := p
          exact (List.of_mem_zip hp).1
        rw [reqsSpec_nil_specQuery (some c) sOps 0 hnil p.1 hmem]
      | cons r rs' =>
        rw [hs2] at hs
        simp only [Except.ok.injEq] at hs
        rw [← hs]
        simp only []
        unfold runSearchExec
        rw [foldl_pair_split (fun p a => searchWrite be st p a)
          (fun p => [Event.exec (searchStmt p.2)])]
        show ((sOps.zip (patchQueries c.embed (r :: rs') pr.1)).foldl
          (fun a p => searchWrite be st p a) rs) = _
        have hpatch : patchQueries c.embed (r :: rs') pr.1 =
            (sOps.zip pr.1).map (fun p => specQuery (some c) p.1.2 p.2) := by
          have hps := patch_spec c hpr.2 []
          simp only [List.length_nil] at hps
          rw [← hpr.1, hs2] at hps
          simpa using hps
        rw [hpatch, zip_map_snd_zip, searchExec_foldl_scatter]
        unfold searchWrites
        rw [List.map_map]
        rfl

/-! ### Per-phase write-index characterizations (C1) -/

theorem runGetPhase_fst_scatter (st : StoreState) (gOps : List (Nat × GetOp))
    (rs : List Result) :
    (runGetPhase st gOps rs).1 = scatter rs (getWrites st gOps) := by
  rw [runGetPhase_eq]
  exact getPhase_scatter st gOps rs

theorem runListPhase_fst_scatter (st : StoreState) (lOps : List (Nat × ListNamespacesOp))
    (rs : List Result) :
    (runListPhase st lOps rs).1 = scatter rs (listWrites st lOps) := by
  rw [runListPhase_eq]
  exact listPhase_foldl_scatter st lOps rs

theorem searchWrites_fst (be : Backend) (cfg : Option EmbeddingConfig) (st : StoreState)
    (sOps : List (Nat × SearchOp)) (qs0 : List SearchQuery) :
    (searchWrites be cfg st sOps qs0).map Prod.fst = (sOps.zip qs0).map (fun p => p.1.1) := by
  unfold searchWrites
  rw [List.map_map]
  rfl

theorem mem_searchWrites_fst (be : Backend) (cfg : Option EmbeddingConfig) (st : StoreState)
    (sOps : List (Nat × SearchOp)) (qs0 : List SearchQuery) (i : Nat)
    (h : i ∈ (searchWrites be cfg st sOps qs0).map Prod.fst) : ∃ s, (i, s) ∈ sOps := by
  rw [searchWrites_fst] at h
  rcases List.mem_map.mp h with ⟨p, hp, hfst⟩
  obtain ⟨⟨i1, s⟩, q⟩ := p
  simp only [] at hfst
  subst hfst
  exact ⟨s, (List.of_mem_zip hp).1⟩

theorem searchWrites_fst_nodup (be : Backend) (cfg : Option EmbeddingConfig)
    (st : StoreState) (sOps : List (Nat × SearchOp)) (qs0 : List SearchQuery)
    (hlen : qs0.length = sOps.length) (hnd : (sOps.map Prod.fst).Nodup) :
    ((searchWrites be cfg st sOps qs0).map Prod.fst).Nodup := by
  rw [searchWrites_fst]
  have hcomp : (sOps.zip qs0).map (fun p => p.1.1) =
      ((sOps.zip qs0).map Prod.fst).map Prod.fst := by
    rw [List.map_map]
    rfl
  rw [hcomp, List.map_fst_zip sOps qs0 (by omega)]
  exact hnd

theorem searchWrites_mem (be : Backend) (cfg : Option EmbeddingConfig) (st : StoreState)
    (sOps : List (Nat × SearchOp)) (qs0 : List SearchQuery) (j i : Nat) (s : SearchOp)
    (q0 : SearchQuery) (h1 : sOps[j]? = some (i, s)) (h2 : qs0[j]? = some q0) :
    (i, Result.items ((runSearchQuery be st (specQuery cfg s q0)).map rowToSearchItem))
      ∈ searchWrites be cfg st sOps qs0 := by
  have hz := zip_getElem? sOps qs0 j (i, s) q0 h1 h2
  have hm := List.getElem?_mem hz
  unfold searchWrites
  exact List.mem_map.mpr ⟨((i, s), q0), hm, rfl⟩

theorem listWrites_fst (st : StoreState) (lOps : List (Nat × ListNamespacesOp)) :
    (listWrites st lOps).map Prod.fst = lOps.map Prod.fst := by
  unfold listWrites
  rw [List.map_map]
  rfl

theorem mem_listWrites_fst (st : StoreState) (lOps : List (Nat × ListNamespacesOp)) (i : Nat)
    (h : i ∈ (listWrites st lOps).map Prod.fst) : ∃ lo, (i, lo) ∈ lOps := by
  rw [listWrites_fst] at h
  rcases List.mem_map.mp h with ⟨p, hp, hfst⟩
  obtain ⟨i1, lo⟩ := p
  simp only [] at hfst
  subst hfst
  exact ⟨lo, hp⟩

theorem listWrites_mem (st : StoreState) (lOps : List (Nat × ListNamespacesOp)) (i : Nat)
    (lo : ListNamespacesOp) (h : (i, lo) ∈ lOps) :
    (i, Result.namespaces (runListNsQuery st lo)) ∈ listWrites st lOps :=
  List.mem_map.mpr ⟨(i, lo), h, rfl⟩

theorem mem_getWrites_fst (st : StoreState) (gOps : List (Nat × GetOp)) (i : Nat)
    (h : i ∈ (getWrites st gOps).map Prod.fst) : ∃ g, (i, g) ∈ gOps := by
  rw [(getWrites_fst_perm st gOps).mem_iff] at h
  rcases List.mem_map.mp h with ⟨p, hp, hfst⟩
  obtain ⟨i1, g⟩ := p
  simp only [] at hfst
  subst hfst
  exact ⟨g, hp⟩

/-- C1: a successful batch returns one result per submitted operation, and
the result at position `i` is exactly the standalone semantics of
operation `i` against the pre-batch state — a Get's item-or-null at the
Get's index, a Search's item list at the Search's index, a
ListNamespaces' namespace list at its index, and the null placeholder at
a Put's index — regardless of the internal grouping and reordering. -/
theorem C1_batch_results_positional (be : Backend) (cfg : Option EmbeddingConfig)
    (st : StoreState) (ops : List Op) (res : List Result) (ev : List Event)
    (st' : StoreState) (h : batch be cfg st ops = (.ok res, ev, st')) :
    res.length = ops.length ∧
    ∀ (i : Nat) (op : Op), ops[i]? = some op →
      ∃ r : Result, res[i]? = some r ∧ opSpec be cfg st op = .ok r := by
  unfold batch at h
  simp only [] at h
  cases hs : runSearchPhase be cfg st (_group_ops ops).searches
      (runGetPhase st (_group_ops ops).gets (List.replicate ops.length Result.null)).1 with
  | error e => rw [hs] at h; simp at h
  | ok p2 =>
    rw [hs] at h
    simp only [] at h
    cases hp : runPutPhase cfg st (_group_ops ops).puts with
    | error e => rw [hp] at h; simp at h
    | ok p4 =>
      rw [hp] at h
      simp only [Prod.mk.injEq, Except.ok.injEq] at h
      obtain ⟨hres, hev, hst⟩ := h
      obtain ⟨qs0, hlen0, hfa, hp21⟩ :=
        runSearchPhase_writes be cfg st (_group_ops ops).searches _ p2 hs
      have hresform : res =
          scatter (scatter (scatter (List.replicate ops.length Result.null)
              (getWrites st (_group_ops ops).gets))
            (searchWrites be cfg st (_group_ops ops).searches qs0))
            (listWrites st (_group_ops ops).lists) := by
        rw [← hres, runListPhase_fst_scatter, hp21, runGetPhase_fst_scatter]
      have hlenres : res.length = ops.length := by
        rw [hresform, scatter_length, scatter_length, scatter_length, List.length_replicate]
      refine ⟨hlenres, ?_⟩
      intro i op hop
      obtain ⟨hi, -⟩ := List.getElem?_eq_some.mp hop
      cases op with
      | get g =>
        have hmemg : (i, g) ∈ (_group_ops ops).gets := (mem_group_gets ops i g).mpr hop
        have hwrite := getWrites_mem st (_group_ops ops).gets i g hmemg
        have hnodup : ((getWrites st (_group_ops ops).gets).map Prod.fst).Nodup :=
          ((getWrites_fst_perm st (_group_ops ops).gets).nodup_iff).mpr (gets_fst_nodup ops)
        have h1 : (scatter (List.replicate ops.length Result.null)
            (getWrites st (_group_ops ops).gets))[i]? = some (getOpSpec st g) :=
          scatter_getElem?_mem _ _ i _ hnodup hwrite (by rwa [List.length_replicate])
        have h2 : i ∉ (searchWrites be cfg st (_group_ops ops).searches qs0).map Prod.fst := by
          intro hmem
          rcases mem_searchWrites_fst be cfg st _ qs0 i hmem with ⟨s, hms⟩
          have hcontra := (mem_group_searches ops i s).mp hms
          rw [hop] at hcontra
          simp at hcontra
        have h3 : i ∉ (listWrites st (_group_ops ops).lists).map Prod.fst := by
          intro hmem
          rcases mem_listWrites_fst st _ i hmem with ⟨lo, hml⟩
          have hcontra := (mem_group_lists ops i lo).mp hml
          rw [hop] at hcontra
          simp at hcontra
        refine ⟨getOpSpec st g, ?_, rfl⟩
        rw [hresform, scatter_getElem?_not_mem _ _ _ h3,
          scatter_getElem?_not_mem _ _ _ h2, h1]
      | put q =>
        have h1 : i ∉ (getWrites st (_group_ops ops).gets).map Prod.fst := by
          intro hmem
          rcases mem_getWrites_fst st _ i hmem with ⟨g, hmg⟩
          have hcontra := (mem_group_gets ops i g).mp hmg
          rw [hop] at hcontra
          simp at hcontra
        have h2 : i ∉ (searchWrites be cfg st (_group_ops ops).searches qs0).map Prod.fst := by
          intro hmem
          rcases mem_searchWrites_fst be cfg st _ qs0 i hmem with ⟨s, hms⟩
          have hcontra := (mem_group_searches ops i s).mp hms
          rw [hop] at hcontra
          simp at hcontra
        have h3 : i ∉ (listWrites st (_group_ops ops).lists).map Prod.fst := by
          intro hmem
          rcases mem_listWrites_fst st _ i hmem with ⟨lo, hml⟩
          have hcontra := (mem_group_lists ops i lo).mp hml
          rw [hop] at hcontra
          simp at hcontra
        refine ⟨Result.null, ?_, rfl⟩
        rw [hresform, scatter_getElem?_not_mem _ _ _ h3, scatter_getElem?_not_mem _ _ _ h2,
          scatter_getElem?_not_mem _ _ _ h1]
        simp [List.getElem?_replicate, hi]
      | search s =>
        have hmems : (i, s) ∈ (_group_ops ops).searches := (mem_group_searches ops i s).mpr hop
        obtain ⟨j, hj⟩ := List.getElem?_of_mem hmems
        obtain ⟨hjlt, -⟩ := List.getElem?_eq_some.mp hj
        have hjq : j < qs0.length := by omega
        obtain ⟨q0, hq0⟩ : ∃ q0, qs0[j]? = some q0 :=
          ⟨qs0.get ⟨j, hjq⟩, by rw [List.getElem?_eq_getElem hjq]; rfl⟩
        have hcomp := forall₂_getElem? hfa j (i, s) q0 hj hq0
        have hwrite := searchWrites_mem be cfg st _ qs0 j i s q0 hj hq0
        have hnodup := searchWrites_fst_nodup be cfg st _ qs0 hlen0 (searches_fst_nodup ops)
        have h1 : i ∉ (getWrites st (_group_ops ops).gets).map Prod.fst := by
          intro hmem
          rcases mem_getWrites_fst st _ i hmem with ⟨g, hmg⟩
          have hcontra := (mem_group_gets ops i g).mp hmg
          rw [hop] at hcontra
          simp at hcontra
        have h3 : i ∉ (listWrites st (_group_ops ops).lists).map Prod.fst := by
          intro hmem
          rcases mem_listWrites_fst st _ i hmem with ⟨lo, hml⟩
          have hcontra := (mem_group_lists ops i lo).mp hml
          rw [hop] at hcontra
          simp at hcontra
        refine ⟨Result.items ((runSearchQuery be st (specQuery cfg s q0)).map
          rowToSearchItem), ?_, ?_⟩
        · rw [hresform, scatter_getElem?_not_mem _ _ _ h3]
          refine scatter_getElem?_mem _ _ i _ hnodup hwrite ?_
          rw [scatter_length, List.length_replicate]
          exact hi
        · show opSpec be cfg st (.search s) = _
          unfold opSpec searchOpSpec
          simp only [bind, Except.bind, hcomp]
      | listNs lo =>
        have hmeml : (i, lo) ∈ (_group_ops ops).lists := (mem_group_lists ops i lo).mpr hop
        have hnodup : ((listWrites st (_group_ops ops).lists).map Prod.fst).Nodup := by
          rw [listWrites_fst]
          exact lists_fst_nodup ops
        refine ⟨Result.namespaces (runListNsQuery st lo), ?_, rfl⟩
        rw [hresform]
        refine scatter_getElem?_mem _ _ i _ hnodup
          (listWrites_mem st _ i lo hmeml) ?_
        rw [scatter_length, scatter_length, List.length_replicate]
        exact hi

/-- Witness: the positional-correspondence theorem applied to a concrete
batch of one Get and one Put against the empty store: two results come
back, and each index satisfies its operation's standalone semantics. -/
theorem C1_batch_results_positional_witness :
    ((batch ⟨fun _ _ => 0⟩ none ⟨[], [], 0⟩
        [Op.get ⟨[pcs "a"], pcs "k"⟩,
         Op.put ⟨[pcs "a"], pcs "k", none⟩]).1.toOption.getD []).length =
      ([Op.get ⟨[pcs "a"], pcs "k"⟩,
        Op.put ⟨[pcs "a"], pcs "k", none⟩] : List Op).length ∧
    ∀ (i : Nat) (op : Op),
      ([Op.get ⟨[pcs "a"], pcs "k"⟩,
        Op.put ⟨[pcs "a"], pcs "k", none⟩] : List Op)[i]? = some op →
      ∃ r : Result,
        ((batch ⟨fun _ _ => 0⟩ none ⟨[], [], 0⟩
          [Op.get ⟨[pcs "a"], pcs "k"⟩,
           Op.put ⟨[pcs "a"], pcs "k", none⟩]).1.toOption.getD [])[i]? = some r ∧
        opSpec ⟨fun _ _ => 0⟩ none ⟨[], [], 0⟩ op = .ok r :=
  C1_batch_results_positional ⟨fun _ _ => 0⟩ none ⟨[], [], 0⟩
    [Op.get ⟨[pcs "a"], pcs "k"⟩, Op.put ⟨[pcs "a"], pcs "k", none⟩]
    ((batch ⟨fun _ _ => 0⟩ none ⟨[], [], 0⟩
      [Op.get ⟨[pcs "a"], pcs "k"⟩,
       Op.put ⟨[pcs "a"], pcs "k", none⟩]).1.toOption.getD [])
    (batch ⟨fun _ _ => 0⟩ none ⟨[], [], 0⟩
      [Op.get ⟨[pcs "a"], pcs "k"⟩, Op.put ⟨[pcs "a"], pcs "k", none⟩]).2.1
    (batch ⟨fun _ _ => 0⟩ none ⟨[], [], 0⟩
      [Op.get ⟨[pcs "a"], pcs "k"⟩, Op.put ⟨[pcs "a"], pcs "k", none⟩]).2.2
    rfl

end LGStore
